import Mathlib

/-!
Verification of the configuration-scan engine of the `dopingflow`
repository (`src/dopingflow/scan.py`): combinatorial enumeration of
dopant label vectors, symmetry canonicalization, size guards, parallel
scoring with streaming top-K selection, and result assembly.

Label vectors are modelled as `List Nat` (numpy int8 arrays hold only
the small non-negative labels `0..3` in this pipeline), permutations of
sublattice indices as `List Nat`, and fractional coordinates as lists of
rationals.  Scores (M3GNet energies) enter the selection loop only
through order comparisons, so they are modelled as integers.
-/

namespace DopingFlow

/-- Byte encoding of a label vector: `labels.tobytes()` of an int8 numpy
array read as a big-endian base-256 natural number.  For label vectors
of one common length whose entries are `< 256`, comparing these numbers
is exactly numpy's raw byte-wise comparison of `tobytes()` values. -/
def encodeLabels (labels : List Nat) : Nat :=
  labels.foldl (fun acc b => acc * 256 + b) 0

/-- Numpy fancy indexing `labels[perm]`: entry `i` of the image is
`labels[perm[i]]` (out-of-range indices never occur in the source; they
default to `0` here). -/
def reindex (labels perm : List Nat) : List Nat :=
  perm.map (fun i => labels.getD i 0)

/-- One step of the source's running-minimum fold in `_canonical_key`:
`if best is None or b < best: best = b`. -/
def optMin (best : Option Nat) (b : Nat) : Option Nat :=
  match best with
  | none => some b
  | some v => if b < v then some b else some v

/-- `_canonical_key(labels, perms)` from `scan.py`: the byte-wise
minimum over the encodings of the images of `labels` under every
permutation in `perms` (`none` only for an empty permutation list, where
the source's `assert best is not None` would fire). -/
def canonicalKey (perms : List (List Nat)) (labels : List Nat) : Option Nat :=
  perms.foldl (fun best p => optMin best (encodeLabels (reindex labels p))) none

/-- Composition of index permutations as numpy arrays: entry `i` of
`compPerm p q` is `p[q[i]]`, so that `labels[p][q] = labels[compPerm p q]`. -/
def compPerm (p q : List Nat) : List Nat :=
  q.map (fun i => p.getD i 0)

/-- A list is a valid permutation of the `n` sublattice-local indices:
length `n`, entries below `n`, no repeats. -/
def IsPermList (n : Nat) (p : List Nat) : Prop :=
  p.length = n ∧ (∀ i ∈ p, i < n) ∧ p.Nodup

instance instDecidableIsPermList (n : Nat) (p : List Nat) :
    Decidable (IsPermList n p) :=
  inferInstanceAs (Decidable (p.length = n ∧ (∀ i ∈ p, i < n) ∧ p.Nodup))

theorem foldl_optMin_some (l : List Nat) (v : Nat) :
    l.foldl optMin (some v) = some (l.foldl min v) := by
  induction l generalizing v with
  | nil => rfl
  | cons x xs ih =>
    simp only [List.foldl_cons, optMin]
    rcases lt_or_ge x v with h | h
    · rw [if_pos h, ih, min_eq_right h.le]
    · rw [if_neg (not_lt.mpr h), ih, min_eq_left h]

theorem foldl_min_spec (l : List Nat) (v : Nat) :
    (l.foldl min v = v ∨ l.foldl min v ∈ l) ∧
      l.foldl min v ≤ v ∧ ∀ a ∈ l, l.foldl min v ≤ a := by
  induction l generalizing v with
  | nil => exact ⟨Or.inl rfl, le_refl v, by simp⟩
  | cons x xs ih =>
    obtain ⟨hmem, hle, hall⟩ := ih (min v x)
    refine ⟨?_, ?_, ?_⟩
    · rcases hmem with h | h
      · rcases min_cases v x with ⟨he, _⟩ | ⟨he, _⟩
        · exact Or.inl (by rw [List.foldl_cons, h, he])
        · exact Or.inr (by rw [List.foldl_cons, h, he]; exact List.mem_cons_self x xs)
      · exact Or.inr (List.mem_cons_of_mem x h)
    · exact le_trans hle (min_le_left v x)
    · intro a ha
      rcases List.mem_cons.mp ha with rfl | ha
      · exact le_trans hle (min_le_right v a)
      · exact hall a ha

theorem canonicalKey_eq_foldl_map (perms : List (List Nat)) (labels : List Nat) :
    canonicalKey perms labels =
      (perms.map (fun p => encodeLabels (reindex labels p))).foldl optMin none := by
  rw [List.foldl_map]
  rfl

/-- Characterization of `_canonical_key` on a non-empty permutation
list: it returns the least encoding among the images. -/
theorem canonicalKey_spec (perms : List (List Nat)) (labels : List Nat)
    (h : perms ≠ []) :
    ∃ m, canonicalKey perms labels = some m ∧
      m ∈ perms.map (fun p => encodeLabels (reindex labels p)) ∧
      ∀ v ∈ perms.map (fun p => encodeLabels (reindex labels p)), m ≤ v := by
  obtain ⟨p, ps, rfl⟩ := List.exists_cons_of_ne_nil h
  rw [canonicalKey_eq_foldl_map, List.map_cons, List.foldl_cons]
  set e := encodeLabels (reindex labels p) with he
  set es := ps.map (fun q => encodeLabels (reindex labels q)) with hes
  have h1 : optMin none e = some e := rfl
  rw [h1, foldl_optMin_some]
  obtain ⟨hmem, hle, hall⟩ := foldl_min_spec es e
  refine ⟨es.foldl min e, rfl, ?_, ?_⟩
  · rcases hmem with h2 | h2
    · rw [h2]; exact List.mem_cons_self e es
    · exact List.mem_cons_of_mem e h2
  · intro v hv
    rcases List.mem_cons.mp hv with rfl | hv
    · exact hle
    · exact hall v hv

theorem getD_map_of_lt (f : Nat → Nat) (p : List Nat) (i : Nat)
    (h : i < p.length) : (p.map f).getD i 0 = f (p.getD i 0) := by
  rw [List.getD_eq_getElem?_getD, List.getD_eq_getElem?_getD,
    List.getElem?_map, List.getElem?_eq_getElem h]
  rfl

theorem reindex_reindex (labels p q : List Nat)
    (hq : ∀ i ∈ q, i < p.length) :
    reindex (reindex labels p) q = reindex labels (compPerm p q) := by
  unfold reindex compPerm
  rw [List.map_map]
  refine List.map_congr_left (fun i hi => ?_)
  exact getD_map_of_lt (fun j => labels.getD j 0) p i (hq i hi)

theorem compPerm_inj (p : List Nat) (n : Nat) (hp : IsPermList n p) :
    ∀ q₁ q₂ : List Nat, (∀ i ∈ q₁, i < n) → (∀ i ∈ q₂, i < n) →
      compPerm p q₁ = compPerm p q₂ → q₁ = q₂ := by
  obtain ⟨hlen, _, hnd⟩ := hp
  intro q₁
  induction q₁ with
  | nil =>
    intro q₂ _ _ h
    cases q₂ with
    | nil => rfl
    | cons b q₂ => simp [compPerm] at h
  | cons a q₁ ih =>
    intro q₂ h₁ h₂ h
    cases q₂ with
    | nil => simp [compPerm] at h
    | cons b q₂ =>
      simp only [compPerm, List.map_cons, List.cons.injEq] at h
      obtain ⟨hhead, htail⟩ := h
      have ha : a < p.length := hlen ▸ h₁ a (List.mem_cons_self a q₁)
      have hb : b < p.length := hlen ▸ h₂ b (List.mem_cons_self b q₂)
      rw [List.getD_eq_getElem _ _ ha, List.getD_eq_getElem _ _ hb] at hhead
      have hab : a = b := (List.Nodup.getElem_inj_iff hnd).mp hhead
      have := ih q₂ (fun i hi => h₁ i (List.mem_cons_of_mem a hi))
        (fun i hi => h₂ i (List.mem_cons_of_mem b hi)) htail
      rw [hab, this]

/-- C2: for the permutation set `P` discovered on the sublattice, the
canonical key of `_canonical_key` is invariant under reindexing the
label vector by any member of `P`.  The hypotheses record that the
members of `P` are genuine index permutations and that `P` is closed
under composition with `p` — both hold for the set built by
`_build_symmetry_permutations`, because its permutations are induced by
the structure's space-group operations (a group containing the
identity), and `op ↦ induced permutation` carries composition of
operations to composition of permutations. -/
theorem canonicalKey_perm_invariant (n : Nat) (P : List (List Nat))
    (labels p : List Nat) (hp : p ∈ P)
    (hP : ∀ q ∈ P, IsPermList n q)
    (hclosed : ∀ q ∈ P, compPerm p q ∈ P) :
    canonicalKey P (reindex labels p) = canonicalKey P labels := by
  have hne : P ≠ [] := List.ne_nil_of_mem hp
  obtain ⟨m₁, e₁, mem₁, min₁⟩ := canonicalKey_spec P (reindex labels p) hne
  obtain ⟨m₂, e₂, mem₂, min₂⟩ := canonicalKey_spec P labels hne
  have hplen : p.length = n := (hP p hp).1
  have key₁ : ∀ q ∈ P,
      reindex (reindex labels p) q = reindex labels (compPerm p q) := by
    intro q hq
    exact reindex_reindex labels p q
      (fun i hi => hplen ▸ (hP q hq).2.1 i hi)
  rw [e₁, e₂]
  congr 1
  apply le_antisymm
  · -- m₁ ≤ m₂ : every value on the plain side arises on the reindexed side
    obtain ⟨r, hr, hrval⟩ := List.mem_map.mp mem₂
    obtain ⟨q, hq, hqr⟩ :=
      Finset.surj_on_of_inj_on_of_card_le (fun q _ => compPerm p q)
        (fun q hq => List.mem_toFinset.mpr (hclosed q (List.mem_toFinset.mp hq)))
        (fun q₁ q₂ hq₁ hq₂ heq =>
          compPerm_inj p n (hP p hp) q₁ q₂
            ((hP q₁ (List.mem_toFinset.mp hq₁)).2.1)
            ((hP q₂ (List.mem_toFinset.mp hq₂)).2.1) heq)
        (le_refl _) r (List.mem_toFinset.mpr hr)
    have hqP : q ∈ P := List.mem_toFinset.mp hq
    refine le_trans (min₁ (encodeLabels (reindex (reindex labels p) q)) ?_) ?_
    · exact List.mem_map.mpr ⟨q, hqP, rfl⟩
    · rw [key₁ q hqP, ← hqr, hrval]
  · -- m₂ ≤ m₁ : every value on the reindexed side arises on the plain side
    obtain ⟨q, hq, hqval⟩ := List.mem_map.mp mem₁
    refine le_trans (min₂ (encodeLabels (reindex labels (compPerm p q))) ?_) ?_
    · exact List.mem_map.mpr ⟨compPerm p q, hclosed q hq, rfl⟩
    · rw [← key₁ q hq, hqval]

theorem canonicalKey_perm_invariant_witness :
    canonicalKey [[0, 1], [1, 0]] (reindex [5, 7] [1, 0]) =
      canonicalKey [[0, 1], [1, 0]] [5, 7] :=
  canonicalKey_perm_invariant 2 [[0, 1], [1, 0]] [5, 7] [1, 0]
    (by decide) (by decide) (by decide)

/-- The all-host label vector `np.zeros(N, dtype=np.int8)`. -/
def zerosL (N : Nat) : List Nat := List.replicate N 0

/-- Numpy fancy assignment `labels[list(A)] = l`. -/
def setLabels (labels : List Nat) (positions : List Nat) (l : Nat) : List Nat :=
  labels.mapIdx (fun i v => if i ∈ positions then l else v)

/-- `_enumerate_label_configs(N, dopant_label_counts)` from `scan.py`:
choose positions for label `l1` among all `N` positions, then positions
for `l2` among the remainder, then `l3`; zero dopants yield the single
all-host vector; more than three dopant species raise `ValueError`.
`itertools.combinations(xs, c)` yields exactly the length-`c` sublists
of `xs`, here `List.sublistsLen c xs`. -/
def enumerateLabelConfigs (N : Nat) (items : List (Nat × Nat)) :
    Except String (List (List Nat)) :=
  match items with
  | [] => .ok [zerosL N]
  | [(l1, c1)] =>
      .ok ((List.sublistsLen c1 (List.range N)).map
        (fun A => setLabels (zerosL N) A l1))
  | [(l1, c1), (l2, c2)] =>
      .ok ((List.sublistsLen c1 (List.range N)).flatMap (fun A =>
        let rem1 := (List.range N).filter (fun p => p ∉ A)
        (List.sublistsLen c2 rem1).map
          (fun B => setLabels (setLabels (zerosL N) A l1) B l2)))
  | [(l1, c1), (l2, c2), (l3, c3)] =>
      .ok ((List.sublistsLen c1 (List.range N)).flatMap (fun A =>
        let rem1 := (List.range N).filter (fun p => p ∉ A)
        (List.sublistsLen c2 rem1).flatMap (fun B =>
          let rem2 := rem1.filter (fun p => p ∉ B)
          (List.sublistsLen c3 rem2).map
            (fun C => setLabels (setLabels (setLabels (zerosL N) A l1) B l2) C l3))))
  | _ => .error "This enumerator supports up to 3 dopants total."

theorem zerosL_eq_map (N : Nat) :
    zerosL N = (List.range N).map (fun _ => 0) := by
  apply List.ext_get
  · simp [zerosL]
  · intro i h₁ h₂
    simp [zerosL]

theorem setLabels_map_range (N : Nat) (f : Nat → Nat) (A : List Nat) (l : Nat) :
    setLabels ((List.range N).map f) A l =
      (List.range N).map (fun i => if i ∈ A then l else f i) := by
  apply List.ext_get
  · simp [setLabels]
  · intro i h₁ h₂
    have hi : i < N := by simpa [setLabels] using h₁
    simp only [setLabels]
    rw [List.get_mapIdx, List.get_map, List.get_map]
    · simp [List.get_range]
    · simpa using hi

theorem mem_sublistsLen_range {N c : Nat} {A : List Nat}
    (h : A ∈ List.sublistsLen c (List.range N)) :
    A.Nodup ∧ A.length = c ∧ ∀ a ∈ A, a < N := by
  obtain ⟨hsub, hlen⟩ := List.mem_sublistsLen.mp h
  exact ⟨hsub.nodup (List.nodup_range N), hlen,
    fun a ha => List.mem_range.mp (hsub.subset ha)⟩

theorem length_filter_range_eq_of_iff (N : Nat) (p : Nat → Bool)
    (A : List Nat) (hA : A.Nodup) (hsub : ∀ a ∈ A, a < N)
    (hiff : ∀ i, i < N → (p i = true ↔ i ∈ A)) :
    ((List.range N).filter p).length = A.length := by
  have hp : ((List.range N).filter p).Perm A := by
    rw [List.perm_ext_iff_of_nodup ((List.nodup_range N).filter p) hA]
    intro a
    constructor
    · intro ha
      obtain ⟨har, hap⟩ := List.mem_filter.mp ha
      exact (hiff a (List.mem_range.mp har)).mp hap
    · intro ha
      exact List.mem_filter.mpr ⟨List.mem_range.mpr (hsub a ha),
        (hiff a (hsub a ha)).mpr ha⟩
  exact hp.length_eq

theorem length_filter_range_compl (N : Nat) (p : Nat → Bool)
    (D : List Nat) (hD : D.Nodup) (hsub : ∀ a ∈ D, a < N)
    (hiff : ∀ i, i < N → (p i = true ↔ i ∉ D)) :
    ((List.range N).filter p).length = N - D.length := by
  have hnot : ((List.range N).filter (fun i => !p i)).length = D.length := by
    apply length_filter_range_eq_of_iff N _ D hD hsub
    intro i hi
    rw [Bool.not_eq_true']
    constructor
    · intro hfalse
      by_contra hmem
      exact absurd ((hiff i hi).mpr hmem) (by simp [hfalse])
    · intro hmem
      by_contra hne
      have : p i = true := by
        cases hpv : p i
        · exact absurd hpv hne
        · rfl
      exact absurd hmem (by simpa using (hiff i hi).mp this)
  have htot := List.length_eq_countP_add_countP p (List.range N)
  rw [List.countP_eq_length_filter, List.countP_eq_length_filter] at htot
  have hconv : (List.range N).filter (fun a => decide (¬p a = true)) =
      (List.range N).filter (fun i => !p i) := by
    apply List.filter_congr
    intro a _
    simp
  rw [List.length_range, hconv, hnot] at htot
  omega

theorem count_map_range (N : Nat) (f : Nat → Nat) (v : Nat) :
    ((List.range N).map f).count v =
      ((List.range N).filter (fun i => f i = v)).length := by
  rw [List.count_eq_countP, List.countP_map, List.countP_eq_length_filter]
  apply congrArg
  apply List.filter_congr
  intro a _
  show (f a == v) = decide (f a = v)
  by_cases h : f a = v
  · simp [h]
  · simp [h]

theorem count_map_range_eq_length (N : Nat) (f : Nat → Nat) (v : Nat)
    (A : List Nat) (hA : A.Nodup) (hsub : ∀ a ∈ A, a < N)
    (hiff : ∀ i, i < N → (f i = v ↔ i ∈ A)) :
    ((List.range N).map f).count v = A.length := by
  rw [count_map_range]
  apply length_filter_range_eq_of_iff N _ A hA hsub
  intro i hi
  simp [hiff i hi]

theorem count_map_range_eq_compl (N : Nat) (f : Nat → Nat) (v : Nat)
    (D : List Nat) (hD : D.Nodup) (hsub : ∀ a ∈ D, a < N)
    (hiff : ∀ i, i < N → (f i = v ↔ i ∉ D)) :
    ((List.range N).map f).count v = N - D.length := by
  rw [count_map_range]
  apply length_filter_range_compl N _ D hD hsub
  intro i hi
  simp [hiff i hi]

theorem enumerateLabelConfigs_counts (N : Nat) (items : List (Nat × Nat))
    (hnz : ∀ pr ∈ items, pr.1 ≠ 0) (hnd : (items.map Prod.fst).Nodup)
    (vecs : List (List Nat))
    (hv : enumerateLabelConfigs N items = Except.ok vecs) :
    (∀ labels ∈ vecs, labels.length = N ∧
        (∀ pr ∈ items, labels.count pr.1 = pr.2) ∧
        labels.count 0 = N - (items.map Prod.snd).sum) ∧
      (items = [] → vecs = [zerosL N]) := by
  rcases items with _ | ⟨⟨l1, c1⟩, rest⟩
  · -- zero dopant species: exactly the all-host vector
    simp only [enumerateLabelConfigs, Except.ok.injEq] at hv
    subst hv
    refine ⟨?_, fun _ => rfl⟩
    intro labels hmem
    rw [List.mem_singleton] at hmem
    subst hmem
    exact ⟨by simp [zerosL], by simp, by simp [zerosL]⟩
  rcases rest with _ | ⟨⟨l2, c2⟩, rest⟩
  · -- one dopant species
    have hl1 : l1 ≠ 0 := hnz (l1, c1) (by simp)
    simp only [enumerateLabelConfigs, Except.ok.injEq] at hv
    subst hv
    refine ⟨?_, by simp⟩
    intro labels hmem
    obtain ⟨A, hAmem, rfl⟩ := List.mem_map.mp hmem
    obtain ⟨hAnd, hAlen, hAlt⟩ := mem_sublistsLen_range hAmem
    simp only [zerosL_eq_map, setLabels_map_range]
    refine ⟨by simp, ?_, ?_⟩
    · intro pr hpr
      rw [List.mem_singleton] at hpr
      subst hpr
      have hiff : ∀ i, i < N →
          ((if i ∈ A then l1 else 0) = l1 ↔ i ∈ A) := by
        intro i hi
        by_cases hA : i ∈ A
        · simp [hA]
        · simp [hA, Ne.symm hl1]
      exact (count_map_range_eq_length N _ l1 A hAnd hAlt hiff).trans hAlen
    · have hiff : ∀ i, i < N →
          ((if i ∈ A then l1 else 0) = 0 ↔ i ∉ A) := by
        intro i hi
        by_cases hA : i ∈ A
        · simp [hA, hl1]
        · simp [hA]
      have hc := count_map_range_eq_compl N _ 0 A hAnd hAlt hiff
      rw [hc, hAlen]
      simp
  rcases rest with _ | ⟨⟨l3, c3⟩, rest⟩
  · -- two dopant species
    have hl1 : l1 ≠ 0 := hnz (l1, c1) (by simp)
    have hl2 : l2 ≠ 0 := hnz (l2, c2) (by simp)
    have h12 : l1 ≠ l2 := by simpa using hnd
    simp only [enumerateLabelConfigs, Except.ok.injEq] at hv
    subst hv
    refine ⟨?_, by simp⟩
    intro labels hmem
    rw [List.mem_flatMap] at hmem
    obtain ⟨A, hAmem, hmem⟩ := hmem
    obtain ⟨hAnd, hAlen, hAlt⟩ := mem_sublistsLen_range hAmem
    simp only [List.mem_map] at hmem
    obtain ⟨B, hBmem, rfl⟩ := hmem
    obtain ⟨hBsub, hBlen⟩ := List.mem_sublistsLen.mp hBmem
    have hrem1nd : ((List.range N).filter (fun p => p ∉ A)).Nodup :=
      (List.nodup_range N).filter _
    have hBnd : B.Nodup := hBsub.nodup hrem1nd
    have hBfacts : ∀ b ∈ B, b < N ∧ b ∉ A := by
      intro b hb
      have hmem2 := hBsub.subset hb
      rw [List.mem_filter] at hmem2
      exact ⟨List.mem_range.mp hmem2.1, by simpa using hmem2.2⟩
    simp only [zerosL_eq_map, setLabels_map_range]
    refine ⟨by simp, ?_, ?_⟩
    · intro pr hpr
      rcases List.mem_cons.mp hpr with heq | hpr
      · rw [heq]
        have hiff : ∀ i, i < N →
            ((if i ∈ B then l2 else if i ∈ A then l1 else 0) = l1 ↔ i ∈ A) := by
          intro i hi
          by_cases hB : i ∈ B
          · rw [if_pos hB]
            have hnA : i ∉ A := (hBfacts i hB).2
            constructor
            · intro h
              exact absurd h.symm h12
            · intro h
              exact absurd h hnA
          · rw [if_neg hB]
            by_cases hA : i ∈ A
            · simp [hA]
            · simp [hA, Ne.symm hl1]
        exact (count_map_range_eq_length N _ l1 A hAnd hAlt hiff).trans hAlen
      · rw [List.mem_singleton] at hpr
        rw [hpr]
        have hiff : ∀ i, i < N →
            ((if i ∈ B then l2 else if i ∈ A then l1 else 0) = l2 ↔ i ∈ B) := by
          intro i hi
          by_cases hB : i ∈ B
          · simp [hB]
          · rw [if_neg hB]
            by_cases hA : i ∈ A
            · rw [if_pos hA]
              constructor
              · intro h
                exact absurd h h12
              · intro h
                exact absurd h hB
            · rw [if_neg hA]
              constructor
              · intro h
                exact absurd h.symm hl2
              · intro h
                exact absurd h hB
        exact (count_map_range_eq_length N _ l2 B hBnd
          (fun b hb => (hBfacts b hb).1) hiff).trans hBlen
    · have hDnd : (A ++ B).Nodup := by
        rw [List.nodup_append]
        exact ⟨hAnd, hBnd, fun a ha hb => (hBfacts a hb).2 ha⟩
      have hDsub : ∀ a ∈ A ++ B, a < N := by
        intro a ha
        rcases List.mem_append.mp ha with h | h
        · exact hAlt a h
        · exact (hBfacts a h).1
      have hiff : ∀ i, i < N →
          ((if i ∈ B then l2 else if i ∈ A then l1 else 0) = 0 ↔
            i ∉ A ++ B) := by
        intro i hi
        by_cases hB : i ∈ B
        · rw [if_pos hB]
          simp [hB, hl2]
        · rw [if_neg hB]
          by_cases hA : i ∈ A
          · rw [if_pos hA]
            simp [hA, hl1]
          · rw [if_neg hA]
            simp [hA, hB]
      have hc := count_map_range_eq_compl N _ 0 (A ++ B) hDnd hDsub hiff
      rw [hc]
      simp [hAlen, hBlen]
  rcases rest with _ | ⟨pr4, rest⟩
  · -- three dopant species
    have hl1 : l1 ≠ 0 := hnz (l1, c1) (by simp)
    have hl2 : l2 ≠ 0 := hnz (l2, c2) (by simp)
    have hl3 : l3 ≠ 0 := hnz (l3, c3) (by simp)
    simp only [List.map_cons, List.map_nil] at hnd
    have h12 : l1 ≠ l2 := by
      intro h
      exact (List.nodup_cons.mp hnd).1 (by simp [h])
    have h13 : l1 ≠ l3 := by
      intro h
      exact (List.nodup_cons.mp hnd).1 (by simp [h])
    have h23 : l2 ≠ l3 := by
      intro h
      exact (List.nodup_cons.mp (List.nodup_cons.mp hnd).2).1 (by simp [h])
    simp only [enumerateLabelConfigs, Except.ok.injEq] at hv
    subst hv
    refine ⟨?_, by simp⟩
    intro labels hmem
    rw [List.mem_flatMap] at hmem
    obtain ⟨A, hAmem, hmem⟩ := hmem
    obtain ⟨hAnd, hAlen, hAlt⟩ := mem_sublistsLen_range hAmem
    simp only [List.mem_flatMap] at hmem
    obtain ⟨B, hBmem, hmem⟩ := hmem
    obtain ⟨hBsub, hBlen⟩ := List.mem_sublistsLen.mp hBmem
    simp only [List.mem_map] at hmem
    obtain ⟨C, hCmem, rfl⟩ := hmem
    obtain ⟨hCsub, hClen⟩ := List.mem_sublistsLen.mp hCmem
    have hrem1nd : ((List.range N).filter (fun p => p ∉ A)).Nodup :=
      (List.nodup_range N).filter _
    have hrem2nd :
        (((List.range N).filter (fun p => p ∉ A)).filter
          (fun p => p ∉ B)).Nodup := hrem1nd.filter _
    have hBnd : B.Nodup := hBsub.nodup hrem1nd
    have hCnd : C.Nodup := hCsub.nodup hrem2nd
    have hBfacts : ∀ b ∈ B, b < N ∧ b ∉ A := by
      intro b hb
      have hmem2 := hBsub.subset hb
      rw [List.mem_filter] at hmem2
      exact ⟨List.mem_range.mp hmem2.1, by simpa using hmem2.2⟩
    have hCfacts : ∀ c ∈ C, c < N ∧ c ∉ A ∧ c ∉ B := by
      intro c hc
      have hmem2 := hCsub.subset hc
      rw [List.mem_filter] at hmem2
      obtain ⟨hmem1, hcB⟩ := hmem2
      rw [List.mem_filter] at hmem1
      exact ⟨List.mem_range.mp hmem1.1, by simpa using hmem1.2,
        by simpa using hcB⟩
    simp only [zerosL_eq_map, setLabels_map_range]
    refine ⟨by simp, ?_, ?_⟩
    · intro pr hpr
      rcases List.mem_cons.mp hpr with heq | hpr
      · rw [heq]
        have hiff : ∀ i, i < N →
            ((if i ∈ C then l3 else if i ∈ B then l2 else
                if i ∈ A then l1 else 0) = l1 ↔ i ∈ A) := by
          intro i hi
          by_cases hC : i ∈ C
          · rw [if_pos hC]
            constructor
            · intro h
              exact absurd h.symm h13
            · intro h
              exact absurd h (hCfacts i hC).2.1
          · rw [if_neg hC]
            by_cases hB : i ∈ B
            · rw [if_pos hB]
              constructor
              · intro h
                exact absurd h.symm h12
              · intro h
                exact absurd h (hBfacts i hB).2
            · rw [if_neg hB]
              by_cases hA : i ∈ A
              · simp [hA]
              · simp [hA, Ne.symm hl1]
        exact (count_map_range_eq_length N _ l1 A hAnd hAlt hiff).trans hAlen
      rcases List.mem_cons.mp hpr with heq | hpr
      · rw [heq]
        have hiff : ∀ i, i < N →
            ((if i ∈ C then l3 else if i ∈ B then l2 else
                if i ∈ A then l1 else 0) = l2 ↔ i ∈ B) := by
          intro i hi
          by_cases hC : i ∈ C
          · rw [if_pos hC]
            constructor
            · intro h
              exact absurd h.symm h23
            · intro h
              exact absurd h (hCfacts i hC).2.2
          · rw [if_neg hC]
            by_cases hB : i ∈ B
            · simp [hB]
            · rw [if_neg hB]
              by_cases hA : i ∈ A
              · rw [if_pos hA]
                constructor
                · intro h
                  exact absurd h h12
                · intro h
                  exact absurd h hB
              · rw [if_neg hA]
                constructor
                · intro h
                  exact absurd h.symm hl2
                · intro h
                  exact absurd h hB
        exact (count_map_range_eq_length N _ l2 B hBnd
          (fun b hb => (hBfacts b hb).1) hiff).trans hBlen
      · rw [List.mem_singleton] at hpr
        rw [hpr]
        have hiff : ∀ i, i < N →
            ((if i ∈ C then l3 else if i ∈ B then l2 else
                if i ∈ A then l1 else 0) = l3 ↔ i ∈ C) := by
          intro i hi
          by_cases hC : i ∈ C
          · simp [hC]
          · rw [if_neg hC]
            by_cases hB : i ∈ B
            · rw [if_pos hB]
              constructor
              · intro h
                exact absurd h h23
              · intro h
                exact absurd h hC
            · rw [if_neg hB]
              by_cases hA : i ∈ A
              · rw [if_pos hA]
                constructor
                · intro h
                  exact absurd h h13
                · intro h
                  exact absurd h hC
              · rw [if_neg hA]
                constructor
                · intro h
                  exact absurd h.symm hl3
                · intro h
                  exact absurd h hC
        exact (count_map_range_eq_length N _ l3 C hCnd
          (fun c hc => (hCfacts c hc).1) hiff).trans hClen
    · have hBCnd : (B ++ C).Nodup := by
        rw [List.nodup_append]
        exact ⟨hBnd, hCnd, fun a ha hb => (hCfacts a hb).2.2 ha⟩
      have hDnd : (A ++ (B ++ C)).Nodup := by
        rw [List.nodup_append]
        refine ⟨hAnd, hBCnd, fun a ha hb => ?_⟩
        rcases List.mem_append.mp hb with h | h
        · exact (hBfacts a h).2 ha
        · exact (hCfacts a h).2.1 ha
      have hDsub : ∀ a ∈ A ++ (B ++ C), a < N := by
        intro a ha
        rcases List.mem_append.mp ha with h | h
        · exact hAlt a h
        rcases List.mem_append.mp h with h | h
        · exact (hBfacts a h).1
        · exact (hCfacts a h).1
      have hiff : ∀ i, i < N →
          ((if i ∈ C then l3 else if i ∈ B then l2 else
              if i ∈ A then l1 else 0) = 0 ↔ i ∉ A ++ (B ++ C)) := by
        intro i hi
        by_cases hC : i ∈ C
        · rw [if_pos hC]
          simp [hC, hl3]
        · rw [if_neg hC]
          by_cases hB : i ∈ B
          · rw [if_pos hB]
            simp [hB, hl2]
          · rw [if_neg hB]
            by_cases hA : i ∈ A
            · rw [if_pos hA]
              simp [hA, hl1]
            · rw [if_neg hA]
              simp [hA, hB, hC]
      have hc := count_map_range_eq_compl N _ 0 (A ++ (B ++ C)) hDnd hDsub hiff
      rw [hc]
      simp [hAlen, hBlen, hClen]
  · -- four or more dopant species: the enumerator raises `ValueError`
    simp [enumerateLabelConfigs] at hv

/-- C6: every label vector yielded by `_enumerate_label_configs(N, dlc)`
has length `N`, assigns each dopant label `l` to exactly `dlc[l]`
positions and every remaining position to the host label `0`; an empty
dopant map yields exactly the all-host vector.  The hypotheses record
that the dict keys are distinct non-zero labels, exactly as the caller
constructs them (`1..k`). -/
theorem enumerate_label_configs_spec (N : Nat) (items : List (Nat × Nat))
    (hnz : ∀ pr ∈ items, pr.1 ≠ 0) (hnd : (items.map Prod.fst).Nodup)
    (vecs : List (List Nat))
    (hv : enumerateLabelConfigs N items = Except.ok vecs) :
    (∀ labels ∈ vecs, labels.length = N ∧
        (∀ pr ∈ items, labels.count pr.1 = pr.2) ∧
        labels.count 0 = N - (items.map Prod.snd).sum) ∧
      (items = [] → vecs = [zerosL N]) :=
  enumerateLabelConfigs_counts N items hnz hnd vecs hv

theorem enumerate_label_configs_spec_witness :
    (∀ labels ∈ (List.sublistsLen 1 (List.range 2)).map
        (fun A => setLabels (zerosL 2) A 1),
      labels.length = 2 ∧
        (∀ pr ∈ [((1 : Nat), (1 : Nat))], labels.count pr.1 = pr.2) ∧
        labels.count 0 = 2 - ([((1 : Nat), (1 : Nat))].map Prod.snd).sum) ∧
      ([((1 : Nat), (1 : Nat))] = [] →
        (List.sublistsLen 1 (List.range 2)).map
          (fun A => setLabels (zerosL 2) A 1) = [zerosL 2]) :=
  enumerate_label_configs_spec 2 [(1, 1)] (by decide) (by decide) _ rfl

/-- The distinct fatal errors `_scan_one_folder` can raise, in source
order.  `scoringFailure` carries the propagated worker exception. -/
inductive ScanError where
  | missingHost
  | tooManyRawConfigs
  | inconsistentCounts
  | tooManyDopants
  | symmetryMatchFailure
  | emptyPermSet
  | uniqueCeiling
  | scoringFailure (msg : String)
deriving DecidableEq

deriving instance DecidableEq for Except

/-- One iteration of the deduplication loop in `_scan_one_folder`
(state: the `seen` key set and the `unique_labels` list): compute the
canonical key, skip if seen, otherwise append, then raise the sizing
error when `len(unique_labels) >= cfg.max_unique`. -/
def dedupStep (perms : List (List Nat)) (maxUnique : Nat)
    (st : List Nat × List (List Nat)) (labels : List Nat) :
    Except ScanError (List Nat × List (List Nat)) :=
  match canonicalKey perms labels with
  | none => .error .emptyPermSet
  | some key =>
      if key ∈ st.1 then .ok st
      else
        if maxUnique ≤ (st.2 ++ [labels]).length then .error .uniqueCeiling
        else .ok (st.1 ++ [key], st.2 ++ [labels])

/-- The whole deduplication loop: fold `dedupStep` over the enumerated
vectors and return the retained `unique_labels`. -/
def dedupUnique (perms : List (List Nat)) (maxUnique : Nat)
    (vecs : List (List Nat)) : Except ScanError (List (List Nat)) :=
  (vecs.foldlM (dedupStep perms maxUnique) ([], [])).map (fun st => st.2)

/-- The vectors the deduplication loop would retain starting from key
set `seen`, ignoring the size ceiling: the first vector per distinct
canonical key. -/
def retained (perms : List (List Nat)) (seen : List Nat) :
    List (List Nat) → List (List Nat)
  | [] => []
  | l :: ls =>
      match canonicalKey perms l with
      | none => []
      | some k =>
          if k ∈ seen then retained perms seen ls
          else l :: retained perms (seen ++ [k]) ls

/-- The number of distinct canonical keys among the enumerated vectors. -/
def distinctKeyCount (perms : List (List Nat))
    (vecs : List (List Nat)) : Nat :=
  (retained perms [] vecs).length

theorem dedup_fold_spec (perms : List (List Nat)) (maxUnique : Nat)
    (hne : perms ≠ []) :
    ∀ (vecs : List (List Nat)) (seen : List Nat) (uniq : List (List Nat)),
      uniq.length < maxUnique →
      (maxUnique ≤ uniq.length + (retained perms seen vecs).length →
        vecs.foldlM (dedupStep perms maxUnique) (seen, uniq) =
          .error .uniqueCeiling) ∧
      (uniq.length + (retained perms seen vecs).length < maxUnique →
        ∃ seen2, vecs.foldlM (dedupStep perms maxUnique) (seen, uniq) =
          .ok (seen2, uniq ++ retained perms seen vecs)) := by
  intro vecs
  induction vecs with
  | nil =>
    intro seen uniq hlt
    refine ⟨fun habs => absurd habs (by simp [retained]; omega), fun _ => ?_⟩
    refine ⟨seen, ?_⟩
    show pure (seen, uniq) = Except.ok (seen, uniq ++ retained perms seen [])
    simp only [retained, List.append_nil]
    rfl
  | cons l ls ih =>
    intro seen uniq hlt
    obtain ⟨k, hk, _, _⟩ := canonicalKey_spec perms l hne
    by_cases hseen : k ∈ seen
    · have hstep : dedupStep perms maxUnique (seen, uniq) l = .ok (seen, uniq) := by
        simp [dedupStep, hk, hseen]
      have hfold : (l :: ls).foldlM (dedupStep perms maxUnique) (seen, uniq) =
          ls.foldlM (dedupStep perms maxUnique) (seen, uniq) := by
        rw [List.foldlM_cons, hstep]
        rfl
      have hret : retained perms seen (l :: ls) = retained perms seen ls := by
        simp [retained, hk, hseen]
      rw [hfold, hret]
      exact ih seen uniq hlt
    · by_cases hcap : maxUnique ≤ uniq.length + 1
      · have hstep : dedupStep perms maxUnique (seen, uniq) l =
            .error .uniqueCeiling := by
          simp only [dedupStep, hk, if_neg hseen]
          rw [if_pos (by simp; omega)]
        have hfold : (l :: ls).foldlM (dedupStep perms maxUnique) (seen, uniq) =
            .error .uniqueCeiling := by
          rw [List.foldlM_cons, hstep]
          rfl
        have hret : retained perms seen (l :: ls) =
            l :: retained perms (seen ++ [k]) ls := by
          simp [retained, hk, hseen]
        rw [hfold, hret]
        refine ⟨fun _ => rfl, fun habs => absurd habs (by simp; omega)⟩
      · have hstep : dedupStep perms maxUnique (seen, uniq) l =
            .ok (seen ++ [k], uniq ++ [l]) := by
          simp only [dedupStep, hk, if_neg hseen]
          rw [if_neg (by simp; omega)]
        have hfold : (l :: ls).foldlM (dedupStep perms maxUnique) (seen, uniq) =
            ls.foldlM (dedupStep perms maxUnique) (seen ++ [k], uniq ++ [l]) := by
          rw [List.foldlM_cons, hstep]
          rfl
        have hret : retained perms seen (l :: ls) =
            l :: retained perms (seen ++ [k]) ls := by
          simp [retained, hk, hseen]
        obtain ⟨herr, hok⟩ := ih (seen ++ [k]) (uniq ++ [l]) (by simp; omega)
        rw [hfold, hret]
        constructor
        · intro hge
          apply herr
          simp only [List.length_append, List.length_singleton]
          simp only [List.length_cons] at hge
          omega
        · intro hltc
          obtain ⟨seen2, hfin⟩ := hok (by
            simp only [List.length_append, List.length_singleton]
            simp only [List.length_cons] at hltc
            omega)
          refine ⟨seen2, ?_⟩
          rw [hfin]
          simp

/-- C3 (amended): the deduplication sizing error (distinct from the
raw-count error) fires exactly when the number of distinct canonical
keys in the enumeration REACHES `max_unique`: the source raises as soon
as `len(unique_labels) >= cfg.max_unique` right after an append, so
deduplication completes without a sizing error iff the enumeration
holds at most `max_unique - 1` distinct canonical keys. -/
theorem dedup_unique_sizing (perms : List (List Nat)) (maxUnique : Nat)
    (vecs : List (List Nat)) (hne : perms ≠ []) (hpos : 0 < maxUnique) :
    (maxUnique ≤ distinctKeyCount perms vecs →
      dedupUnique perms maxUnique vecs = .error .uniqueCeiling) ∧
    (distinctKeyCount perms vecs < maxUnique →
      dedupUnique perms maxUnique vecs = .ok (retained perms [] vecs)) := by
  obtain ⟨herr, hok⟩ :=
    dedup_fold_spec perms maxUnique hne vecs [] [] (by simpa using hpos)
  constructor
  · intro h
    unfold dedupUnique
    rw [herr (by simpa [distinctKeyCount] using h)]
    rfl
  · intro h
    obtain ⟨seen2, hfin⟩ := hok (by simpa [distinctKeyCount] using h)
    unfold dedupUnique
    rw [hfin]
    simp [Except.map]

/-- C3 counterexample: with `max_unique = 1` and an enumeration holding
exactly one distinct canonical key — not more than the ceiling — the
loop still raises the sizing error, because the source tests
`len(unique_labels) >= cfg.max_unique` rather than `>`. -/
theorem dedup_unique_sizing_counterexample :
    distinctKeyCount [[0]] [zerosL 1] ≤ 1 ∧
      dedupUnique [[0]] 1 [zerosL 1] = .error .uniqueCeiling := by
  constructor
  · decide
  · rfl

theorem dedup_unique_sizing_witness :
    dedupUnique [[0]] 2 [zerosL 1] = .ok (retained [[0]] [] [zerosL 1]) :=
  (dedup_unique_sizing [[0]] 2 [zerosL 1] (by decide) (by decide)).2 (by decide)

theorem encodeLabels_foldl_acc (l : List Nat) :
    ∀ acc : Nat, l.foldl (fun a b => a * 256 + b) acc =
      acc * 256 ^ l.length + encodeLabels l := by
  induction l with
  | nil =>
    intro acc
    simp [encodeLabels]
  | cons x xs ih =>
    intro acc
    show xs.foldl (fun a b => a * 256 + b) (acc * 256 + x) = _
    rw [ih (acc * 256 + x)]
    have hx : encodeLabels (x :: xs) = x * 256 ^ xs.length + encodeLabels xs := by
      show xs.foldl (fun a b => a * 256 + b) (0 * 256 + x) = _
      rw [ih (0 * 256 + x)]
      ring
    rw [List.length_cons, hx]
    ring

theorem encodeLabels_cons (a : Nat) (l : List Nat) :
    encodeLabels (a :: l) = a * 256 ^ l.length + encodeLabels l := by
  show l.foldl (fun a b => a * 256 + b) (0 * 256 + a) = _
  rw [encodeLabels_foldl_acc l (0 * 256 + a)]
  ring

theorem encodeLabels_lt (l : List Nat) (h : ∀ x ∈ l, x < 256) :
    encodeLabels l < 256 ^ l.length := by
  induction l with
  | nil => simp [encodeLabels]
  | cons x xs ih =>
    have hx : x < 256 := h x (by simp)
    have hxs := ih (fun y hy => h y (by simp [hy]))
    rw [encodeLabels_cons, List.length_cons, pow_succ]
    calc x * 256 ^ xs.length + encodeLabels xs
        < x * 256 ^ xs.length + 256 ^ xs.length := by omega
      _ = (x + 1) * 256 ^ xs.length := by ring
      _ ≤ 256 * 256 ^ xs.length := Nat.mul_le_mul_right _ hx
      _ = 256 ^ xs.length * 256 := by ring

theorem encodeLabels_inj : ∀ (l1 l2 : List Nat), l1.length = l2.length →
    (∀ x ∈ l1, x < 256) → (∀ x ∈ l2, x < 256) →
    encodeLabels l1 = encodeLabels l2 → l1 = l2 := by
  intro l1
  induction l1 with
  | nil =>
    intro l2 hlen _ _ _
    cases l2 with
    | nil => rfl
    | cons b l2 => simp at hlen
  | cons a l1 ih =>
    intro l2 hlen h1 h2 henc
    cases l2 with
    | nil => simp at hlen
    | cons b l2 =>
      have hlen2 : l1.length = l2.length := by simpa using hlen
      rw [encodeLabels_cons, encodeLabels_cons, hlen2] at henc
      have he1 : encodeLabels l1 < 256 ^ l2.length := by
        rw [← hlen2]
        exact encodeLabels_lt l1 (fun x hx => h1 x (by simp [hx]))
      have he2 : encodeLabels l2 < 256 ^ l2.length :=
        encodeLabels_lt l2 (fun x hx => h2 x (by simp [hx]))
      have hab : a = b := by
        rcases Nat.lt_trichotomy a b with hab | hab | hab
        · exfalso
          have hlt : a * 256 ^ l2.length + encodeLabels l1 <
              b * 256 ^ l2.length + encodeLabels l2 := by
            calc a * 256 ^ l2.length + encodeLabels l1
                < a * 256 ^ l2.length + 256 ^ l2.length := by omega
              _ = (a + 1) * 256 ^ l2.length := by ring
              _ ≤ b * 256 ^ l2.length := Nat.mul_le_mul_right _ hab
              _ ≤ b * 256 ^ l2.length + encodeLabels l2 := Nat.le_add_right _ _
          omega
        · exact hab
        · exfalso
          have hlt : b * 256 ^ l2.length + encodeLabels l2 <
              a * 256 ^ l2.length + encodeLabels l1 := by
            calc b * 256 ^ l2.length + encodeLabels l2
                < b * 256 ^ l2.length + 256 ^ l2.length := by omega
              _ = (b + 1) * 256 ^ l2.length := by ring
              _ ≤ a * 256 ^ l2.length := Nat.mul_le_mul_right _ hab
              _ ≤ a * 256 ^ l2.length + encodeLabels l1 := Nat.le_add_right _ _
          omega
      subst hab
      have htail : encodeLabels l1 = encodeLabels l2 := Nat.add_left_cancel henc
      rw [ih l2 hlen2 (fun x hx => h1 x (by simp [hx]))
        (fun x hx => h2 x (by simp [hx])) htail]

theorem reindex_range (labels : List Nat) (N : Nat) (h : labels.length = N) :
    reindex labels (List.range N) = labels := by
  apply List.ext_get
  · simp [reindex, h]
  · intro i h1 h2
    have hi : i < N := by simpa [reindex] using h1
    have hi2 : i < labels.length := by omega
    simp only [reindex]
    rw [List.get_map]
    simp only [List.get_range]
    rw [List.getD_eq_getElem _ _ hi2]
    rfl

theorem canonicalKey_single (p labels : List Nat) :
    canonicalKey [p] labels = some (encodeLabels (reindex labels p)) := rfl

theorem retained_all (perms : List (List Nat)) :
    ∀ (vecs : List (List Nat)) (seen : List Nat),
      (∀ l ∈ vecs, ∃ k, canonicalKey perms l = some k ∧ k ∉ seen) →
      (vecs.map (fun l => canonicalKey perms l)).Nodup →
      retained perms seen vecs = vecs := by
  intro vecs
  induction vecs with
  | nil =>
    intro seen _ _
    rfl
  | cons l ls ih =>
    intro seen hk hnd
    obtain ⟨k, hkey, hnotseen⟩ := hk l (List.mem_cons_self l ls)
    have hstep : retained perms seen (l :: ls) =
        l :: retained perms (seen ++ [k]) ls := by
      simp [retained, hkey, hnotseen]
    rw [hstep]
    simp only [List.map_cons] at hnd
    congr 1
    apply ih
    · intro l2 hl2
      obtain ⟨k2, hkey2, hns2⟩ := hk l2 (List.mem_cons_of_mem l hl2)
      refine ⟨k2, hkey2, ?_⟩
      intro hmem
      rcases List.mem_append.mp hmem with hmem | hmem
      · exact hns2 hmem
      · rw [List.mem_singleton] at hmem
        subst hmem
        have hm : canonicalKey perms l ∈
            ls.map (fun l => canonicalKey perms l) := by
          refine List.mem_map.mpr ⟨l2, hl2, ?_⟩
          rw [hkey2, hkey]
        exact (List.nodup_cons.mp hnd).1 hm
    · exact (List.nodup_cons.mp hnd).2

theorem filter_mem_of_sublist {l2 l1 : List Nat} (h : l2.Sublist l1)
    (hnd : l1.Nodup) : l1.filter (fun a => a ∈ l2) = l2 := by
  induction h with
  | slnil => rfl
  | @cons ls lb a h ih =>
    have hna : a ∉ ls := fun hmem => (List.nodup_cons.mp hnd).1 (h.subset hmem)
    rw [List.filter_cons_of_neg (by simpa using hna)]
    exact ih (List.nodup_cons.mp hnd).2
  | @cons₂ l2x l1x a h ih =>
    rw [List.filter_cons_of_pos (by simp)]
    have hna : a ∉ l1x := (List.nodup_cons.mp hnd).1
    have hstep : l1x.filter (fun x => x ∈ a :: l2x) =
        l1x.filter (fun x => x ∈ l2x) := by
      apply List.filter_congr
      intro x hx
      have hxa : x ≠ a := fun he => hna (he ▸ hx)
      simp [hxa]
    rw [hstep, ih (List.nodup_cons.mp hnd).2]

/-- The sublattice positions of a label vector that carry label `l`. -/
def recoverPositions (v : List Nat) (l : Nat) : List Nat :=
  (List.range v.length).filter (fun i => v.getD i 0 = l)

theorem recover_map_range (N : Nat) (g : Nat → Nat) (l : Nat) :
    recoverPositions ((List.range N).map g) l =
      (List.range N).filter (fun i => g i = l) := by
  unfold recoverPositions
  rw [List.length_map, List.length_range]
  apply List.filter_congr
  intro i hi
  have hiN : i < N := List.mem_range.mp hi
  have hval : ((List.range N).map g).getD i 0 = g i := by
    rw [List.getD_eq_getElem _ _ (by simp [hiN])]
    simp
  rw [hval]

theorem filter_eq_of_mem_iff (N : Nat) (p : Nat → Bool) (A : List Nat)
    (hA : A.Sublist (List.range N))
    (hiff : ∀ i, i < N → (p i = true ↔ i ∈ A)) :
    (List.range N).filter p = A := by
  have h1 : (List.range N).filter p =
      (List.range N).filter (fun a => a ∈ A) := by
    apply List.filter_congr
    intro i hi
    have hiN := List.mem_range.mp hi
    apply Bool.eq_iff_iff.mpr
    rw [decide_eq_true_eq]
    exact hiff i hiN
  rw [h1]
  exact filter_mem_of_sublist hA (List.nodup_range N)

theorem enumerateLabelConfigs_shape (N : Nat) (items : List (Nat × Nat))
    (vecs : List (List Nat))
    (hv : enumerateLabelConfigs N items = Except.ok vecs) :
    ∀ v ∈ vecs, v.length = N ∧
      ∀ x ∈ v, x = 0 ∨ x ∈ items.map Prod.fst := by
  rcases items with _ | ⟨⟨l1, c1⟩, rest⟩
  · simp only [enumerateLabelConfigs, Except.ok.injEq] at hv
    subst hv
    intro v hmem
    rw [List.mem_singleton] at hmem
    subst hmem
    refine ⟨by simp [zerosL], ?_⟩
    intro x hx
    left
    simpa [zerosL] using (List.eq_of_mem_replicate hx)
  rcases rest with _ | ⟨⟨l2, c2⟩, rest⟩
  · simp only [enumerateLabelConfigs, Except.ok.injEq] at hv
    subst hv
    intro v hmem
    obtain ⟨A, hAmem, rfl⟩ := List.mem_map.mp hmem
    rw [zerosL_eq_map, setLabels_map_range]
    refine ⟨by simp, ?_⟩
    intro x hx
    obtain ⟨i, _, hval⟩ := List.mem_map.mp hx
    by_cases hA : i ∈ A
    · right
      rw [if_pos hA] at hval
      simp [← hval]
    · left
      rw [if_neg hA] at hval
      exact hval.symm
  rcases rest with _ | ⟨⟨l3, c3⟩, rest⟩
  · simp only [enumerateLabelConfigs, Except.ok.injEq] at hv
    subst hv
    intro v hmem
    rw [List.mem_flatMap] at hmem
    obtain ⟨A, hAmem, hmem⟩ := hmem
    simp only [List.mem_map] at hmem
    obtain ⟨B, hBmem, rfl⟩ := hmem
    rw [zerosL_eq_map, setLabels_map_range, setLabels_map_range]
    refine ⟨by simp, ?_⟩
    intro x hx
    obtain ⟨i, _, hval⟩ := List.mem_map.mp hx
    by_cases hB : i ∈ B
    · right
      rw [if_pos hB] at hval
      simp [← hval]
    · rw [if_neg hB] at hval
      by_cases hA : i ∈ A
      · right
        rw [if_pos hA] at hval
        simp [← hval]
      · left
        rw [if_neg hA] at hval
        exact hval.symm
  rcases rest with _ | ⟨pr4, rest⟩
  · simp only [enumerateLabelConfigs, Except.ok.injEq] at hv
    subst hv
    intro v hmem
    rw [List.mem_flatMap] at hmem
    obtain ⟨A, hAmem, hmem⟩ := hmem
    simp only [List.mem_flatMap] at hmem
    obtain ⟨B, hBmem, hmem⟩ := hmem
    simp only [List.mem_map] at hmem
    obtain ⟨C, hCmem, rfl⟩ := hmem
    rw [zerosL_eq_map, setLabels_map_range, setLabels_map_range,
      setLabels_map_range]
    refine ⟨by simp, ?_⟩
    intro x hx
    obtain ⟨i, _, hval⟩ := List.mem_map.mp hx
    by_cases hC : i ∈ C
    · right
      rw [if_pos hC] at hval
      simp [← hval]
    · rw [if_neg hC] at hval
      by_cases hB : i ∈ B
      · right
        rw [if_pos hB] at hval
        simp [← hval]
      · rw [if_neg hB] at hval
        by_cases hA : i ∈ A
        · right
          rw [if_pos hA] at hval
          simp [← hval]
        · left
          rw [if_neg hA] at hval
          exact hval.symm
  · simp [enumerateLabelConfigs] at hv

theorem sublist_filter_notmem {N c : Nat} {A B : List Nat}
    (hB : B ∈ List.sublistsLen c ((List.range N).filter (fun p => p ∉ A))) :
    B.Sublist (List.range N) ∧ ∀ b ∈ B, b ∉ A := by
  obtain ⟨hsub, _⟩ := List.mem_sublistsLen.mp hB
  refine ⟨hsub.trans (List.filter_sublist _), ?_⟩
  intro b hb
  have hmem := hsub.subset hb
  rw [List.mem_filter] at hmem
  simpa using hmem.2

theorem sublist_filter2_notmem {N c : Nat} {A B C : List Nat}
    (hC : C ∈ List.sublistsLen c
      (((List.range N).filter (fun p => p ∉ A)).filter (fun p => p ∉ B))) :
    C.Sublist (List.range N) ∧ ∀ x ∈ C, x ∉ A ∧ x ∉ B := by
  obtain ⟨hsub, _⟩ := List.mem_sublistsLen.mp hC
  refine ⟨(hsub.trans (List.filter_sublist _)).trans (List.filter_sublist _), ?_⟩
  intro x hx
  have hmem := hsub.subset hx
  rw [List.mem_filter] at hmem
  obtain ⟨hmem1, hxB⟩ := hmem
  rw [List.mem_filter] at hmem1
  exact ⟨by simpa using hmem1.2, by simpa using hxB⟩

theorem recover_single (N l1 : Nat) (hl1 : l1 ≠ 0) (A : List Nat)
    (hA : A.Sublist (List.range N)) :
    recoverPositions (setLabels (zerosL N) A l1) l1 = A := by
  rw [zerosL_eq_map, setLabels_map_range, recover_map_range]
  apply filter_eq_of_mem_iff N _ A hA
  intro i hi
  rw [decide_eq_true_eq]
  by_cases hA2 : i ∈ A
  · simp [hA2]
  · simp [hA2, Ne.symm hl1]

theorem recover_double_l1 (N l1 l2 : Nat) (hl1 : l1 ≠ 0) (h12 : l1 ≠ l2)
    (A B : List Nat) (hA : A.Sublist (List.range N))
    (hBA : ∀ b ∈ B, b ∉ A) :
    recoverPositions (setLabels (setLabels (zerosL N) A l1) B l2) l1 = A := by
  rw [zerosL_eq_map, setLabels_map_range, setLabels_map_range,
    recover_map_range]
  apply filter_eq_of_mem_iff N _ A hA
  intro i hi
  rw [decide_eq_true_eq]
  by_cases hB : i ∈ B
  · rw [if_pos hB]
    constructor
    · intro h
      exact absurd h.symm h12
    · intro h
      exact absurd h (hBA i hB)
  · rw [if_neg hB]
    by_cases hA2 : i ∈ A
    · simp [hA2]
    · simp [hA2, Ne.symm hl1]

theorem recover_double_l2 (N l1 l2 : Nat) (hl2 : l2 ≠ 0) (h12 : l1 ≠ l2)
    (A B : List Nat) (hB : B.Sublist (List.range N)) :
    recoverPositions (setLabels (setLabels (zerosL N) A l1) B l2) l2 = B := by
  rw [zerosL_eq_map, setLabels_map_range, setLabels_map_range,
    recover_map_range]
  apply filter_eq_of_mem_iff N _ B hB
  intro i hi
  rw [decide_eq_true_eq]
  by_cases hB2 : i ∈ B
  · simp [hB2]
  · rw [if_neg hB2]
    by_cases hA : i ∈ A
    · rw [if_pos hA]
      constructor
      · intro h
        exact absurd h h12
      · intro h
        exact absurd h hB2
    · rw [if_neg hA]
      constructor
      · intro h
        exact absurd h.symm hl2
      · intro h
        exact absurd h hB2

theorem recover_triple_l1 (N l1 l2 l3 : Nat) (hl1 : l1 ≠ 0)
    (h12 : l1 ≠ l2) (h13 : l1 ≠ l3) (A B C : List Nat)
    (hA : A.Sublist (List.range N)) (hBA : ∀ b ∈ B, b ∉ A)
    (hCA : ∀ x ∈ C, x ∉ A) :
    recoverPositions
      (setLabels (setLabels (setLabels (zerosL N) A l1) B l2) C l3) l1 = A := by
  rw [zerosL_eq_map, setLabels_map_range, setLabels_map_range,
    setLabels_map_range, recover_map_range]
  apply filter_eq_of_mem_iff N _ A hA
  intro i hi
  rw [decide_eq_true_eq]
  by_cases hC : i ∈ C
  · rw [if_pos hC]
    constructor
    · intro h
      exact absurd h.symm h13
    · intro h
      exact absurd h (hCA i hC)
  · rw [if_neg hC]
    by_cases hB : i ∈ B
    · rw [if_pos hB]
      constructor
      · intro h
        exact absurd h.symm h12
      · intro h
        exact absurd h (hBA i hB)
    · rw [if_neg hB]
      by_cases hA2 : i ∈ A
      · simp [hA2]
      · simp [hA2, Ne.symm hl1]

theorem recover_triple_l2 (N l1 l2 l3 : Nat) (hl2 : l2 ≠ 0)
    (h12 : l1 ≠ l2) (h23 : l2 ≠ l3) (A B C : List Nat)
    (hB : B.Sublist (List.range N)) (hCB : ∀ x ∈ C, x ∉ B) :
    recoverPositions
      (setLabels (setLabels (setLabels (zerosL N) A l1) B l2) C l3) l2 = B := by
  rw [zerosL_eq_map, setLabels_map_range, setLabels_map_range,
    setLabels_map_range, recover_map_range]
  apply filter_eq_of_mem_iff N _ B hB
  intro i hi
  rw [decide_eq_true_eq]
  by_cases hC : i ∈ C
  · rw [if_pos hC]
    constructor
    · intro h
      exact absurd h.symm h23
    · intro h
      exact absurd h (hCB i hC)
  · rw [if_neg hC]
    by_cases hB2 : i ∈ B
    · simp [hB2]
    · rw [if_neg hB2]
      by_cases hA : i ∈ A
      · rw [if_pos hA]
        constructor
        · intro h
          exact absurd h h12
        · intro h
          exact absurd h hB2
      · rw [if_neg hA]
        constructor
        · intro h
          exact absurd h.symm hl2
        · intro h
          exact absurd h hB2

theorem recover_triple_l3 (N l1 l2 l3 : Nat) (hl3 : l3 ≠ 0)
    (h13 : l1 ≠ l3) (h23 : l2 ≠ l3) (A B C : List Nat)
    (hC : C.Sublist (List.range N)) :
    recoverPositions
      (setLabels (setLabels (setLabels (zerosL N) A l1) B l2) C l3) l3 = C := by
  rw [zerosL_eq_map, setLabels_map_range, setLabels_map_range,
    setLabels_map_range, recover_map_range]
  apply filter_eq_of_mem_iff N _ C hC
  intro i hi
  rw [decide_eq_true_eq]
  by_cases hC2 : i ∈ C
  · simp [hC2]
  · rw [if_neg hC2]
    by_cases hB : i ∈ B
    · rw [if_pos hB]
      constructor
      · intro h
        exact absurd h h23
      · intro h
        exact absurd h hC2
    · rw [if_neg hB]
      by_cases hA : i ∈ A
      · rw [if_pos hA]
        constructor
        · intro h
          exact absurd h h13
        · intro h
          exact absurd h hC2
      · rw [if_neg hA]
        constructor
        · intro h
          exact absurd h.symm hl3
        · intro h
          exact absurd h hC2

theorem enumerateLabelConfigs_nodup (N : Nat) (items : List (Nat × Nat))
    (hnz : ∀ pr ∈ items, pr.1 ≠ 0) (hnd : (items.map Prod.fst).Nodup)
    (vecs : List (List Nat))
    (hv : enumerateLabelConfigs N items = Except.ok vecs) : vecs.Nodup := by
  rcases items with _ | ⟨⟨l1, c1⟩, rest⟩
  · simp only [enumerateLabelConfigs, Except.ok.injEq] at hv
    subst hv
    simp
  rcases rest with _ | ⟨⟨l2, c2⟩, rest⟩
  · -- one dopant species
    have hl1 : l1 ≠ 0 := hnz (l1, c1) (by simp)
    simp only [enumerateLabelConfigs, Except.ok.injEq] at hv
    subst hv
    apply List.Nodup.map_on
    · intro A1 h1 A2 h2 heq
      have r1 := recover_single N l1 hl1 A1 (List.mem_sublistsLen.mp h1).1
      have r2 := recover_single N l1 hl1 A2 (List.mem_sublistsLen.mp h2).1
      rw [← r1, ← r2, heq]
    · exact List.nodup_sublistsLen c1 (List.nodup_range N)
  rcases rest with _ | ⟨⟨l3, c3⟩, rest⟩
  · -- two dopant species
    have hl1 : l1 ≠ 0 := hnz (l1, c1) (by simp)
    have hl2 : l2 ≠ 0 := hnz (l2, c2) (by simp)
    have h12 : l1 ≠ l2 := by simpa using hnd
    simp only [enumerateLabelConfigs, Except.ok.injEq] at hv
    subst hv
    rw [List.nodup_flatMap]
    constructor
    · intro A hAmem
      apply List.Nodup.map_on
      · intro B1 hB1 B2 hB2 heq
        have r1 := recover_double_l2 N l1 l2 hl2 h12 A B1
          (sublist_filter_notmem hB1).1
        have r2 := recover_double_l2 N l1 l2 hl2 h12 A B2
          (sublist_filter_notmem hB2).1
        rw [← r1, ← r2, heq]
      · exact List.nodup_sublistsLen c2 ((List.nodup_range N).filter _)
    · apply List.Pairwise.imp_of_mem ?_
        (List.nodup_sublistsLen c1 (List.nodup_range N))
      intro A1 A2 h1 h2 hne
      dsimp only [Function.onFun]
      intro v hv1 hv2
      obtain ⟨B1, hB1, hveq1⟩ := List.mem_map.mp hv1
      obtain ⟨B2, hB2, hveq2⟩ := List.mem_map.mp hv2
      apply hne
      have hA1sub := (List.mem_sublistsLen.mp h1).1
      have hA2sub := (List.mem_sublistsLen.mp h2).1
      have r1 := recover_double_l1 N l1 l2 hl1 h12 A1 B1 hA1sub
        (sublist_filter_notmem hB1).2
      have r2 := recover_double_l1 N l1 l2 hl1 h12 A2 B2 hA2sub
        (sublist_filter_notmem hB2).2
      rw [← r1, ← r2, hveq1, hveq2]
  rcases rest with _ | ⟨pr4, rest⟩
  · -- three dopant species
    have hl1 : l1 ≠ 0 := hnz (l1, c1) (by simp)
    have hl2 : l2 ≠ 0 := hnz (l2, c2) (by simp)
    have hl3 : l3 ≠ 0 := hnz (l3, c3) (by simp)
    simp only [List.map_cons, List.map_nil] at hnd
    have h12 : l1 ≠ l2 := by
      intro h
      exact (List.nodup_cons.mp hnd).1 (by simp [h])
    have h13 : l1 ≠ l3 := by
      intro h
      exact (List.nodup_cons.mp hnd).1 (by simp [h])
    have h23 : l2 ≠ l3 := by
      intro h
      exact (List.nodup_cons.mp (List.nodup_cons.mp hnd).2).1 (by simp [h])
    simp only [enumerateLabelConfigs, Except.ok.injEq] at hv
    subst hv
    rw [List.nodup_flatMap]
    constructor
    · intro A hAmem
      rw [List.nodup_flatMap]
      constructor
      · intro B hBmem
        apply List.Nodup.map_on
        · intro C1 hC1 C2 hC2 heq
          have r1 := recover_triple_l3 N l1 l2 l3 hl3 h13 h23 A B C1
            (sublist_filter2_notmem hC1).1
          have r2 := recover_triple_l3 N l1 l2 l3 hl3 h13 h23 A B C2
            (sublist_filter2_notmem hC2).1
          rw [← r1, ← r2, heq]
        · exact List.nodup_sublistsLen c3
            (((List.nodup_range N).filter _).filter _)
      · apply List.Pairwise.imp_of_mem ?_
          (List.nodup_sublistsLen c2 ((List.nodup_range N).filter _))
        intro B1 B2 hb1 hb2 hne
        dsimp only [Function.onFun]
        intro v hv1 hv2
        obtain ⟨C1, hC1, hveq1⟩ := List.mem_map.mp hv1
        obtain ⟨C2, hC2, hveq2⟩ := List.mem_map.mp hv2
        apply hne
        have r1 := recover_triple_l2 N l1 l2 l3 hl2 h12 h23 A B1 C1
          (sublist_filter_notmem hb1).1 (fun x hx => (sublist_filter2_notmem hC1).2 x hx |>.2)
        have r2 := recover_triple_l2 N l1 l2 l3 hl2 h12 h23 A B2 C2
          (sublist_filter_notmem hb2).1 (fun x hx => (sublist_filter2_notmem hC2).2 x hx |>.2)
        rw [← r1, ← r2, hveq1, hveq2]
    · apply List.Pairwise.imp_of_mem ?_
        (List.nodup_sublistsLen c1 (List.nodup_range N))
      intro A1 A2 h1 h2 hne
      dsimp only [Function.onFun]
      intro v hv1 hv2
      rw [List.mem_flatMap] at hv1 hv2
      obtain ⟨B1, hB1, hv1⟩ := hv1
      obtain ⟨B2, hB2, hv2⟩ := hv2
      simp only [List.mem_map] at hv1 hv2
      obtain ⟨C1, hC1, hveq1⟩ := hv1
      obtain ⟨C2, hC2, hveq2⟩ := hv2
      apply hne
      have hA1sub := (List.mem_sublistsLen.mp h1).1
      have hA2sub := (List.mem_sublistsLen.mp h2).1
      have r1 := recover_triple_l1 N l1 l2 l3 hl1 h12 h13 A1 B1 C1 hA1sub
        (sublist_filter_notmem hB1).2
        (fun x hx => (sublist_filter2_notmem hC1).2 x hx |>.1)
      have r2 := recover_triple_l1 N l1 l2 l3 hl1 h12 h13 A2 B2 C2 hA2sub
        (sublist_filter_notmem hB2).2
        (fun x hx => (sublist_filter2_notmem hC2).2 x hx |>.1)
      rw [← r1, ← r2, hveq1, hveq2]
  · simp [enumerateLabelConfigs] at hv

/-- C7: with the identity as the only discovered symmetry permutation,
the canonical key of a label vector is the byte encoding of the labels
themselves, which is injective on label vectors of one fixed length, so
the deduplication loop retains every enumerated label vector and the
symmetry-unique count equals the raw enumerated count (the size ceiling
not being hit, as any completed run guarantees). -/
theorem identity_only_dedup_retains_all (N maxUnique : Nat)
    (items : List (Nat × Nat)) (hnz : ∀ pr ∈ items, pr.1 ≠ 0)
    (hnd : (items.map Prod.fst).Nodup)
    (hsmall : ∀ pr ∈ items, pr.1 < 256) (vecs : List (List Nat))
    (hv : enumerateLabelConfigs N items = Except.ok vecs)
    (hcap : vecs.length < maxUnique) :
    dedupUnique [List.range N] maxUnique vecs = Except.ok vecs := by
  have hshape := enumerateLabelConfigs_shape N items vecs hv
  have hvnodup := enumerateLabelConfigs_nodup N items hnz hnd vecs hv
  have hkeys : ∀ v ∈ vecs,
      canonicalKey [List.range N] v = some (encodeLabels v) := by
    intro v hvm
    rw [canonicalKey_single, reindex_range v N (hshape v hvm).1]
  have hentries : ∀ v ∈ vecs, ∀ x ∈ v, x < 256 := by
    intro v hvm x hx
    rcases (hshape v hvm).2 x hx with h0 | hl
    · omega
    · obtain ⟨pr, hpr, hx2⟩ := List.mem_map.mp hl
      rw [← hx2]
      exact hsmall pr hpr
  have hmapnodup :
      (vecs.map (fun l => canonicalKey [List.range N] l)).Nodup := by
    apply List.Nodup.map_on
    · intro v1 h1 v2 h2 heq
      rw [hkeys v1 h1, hkeys v2 h2, Option.some.injEq] at heq
      exact encodeLabels_inj v1 v2
        (by rw [(hshape v1 h1).1, (hshape v2 h2).1])
        (hentries v1 h1) (hentries v2 h2) heq
    · exact hvnodup
  have hret : retained [List.range N] [] vecs = vecs := by
    apply retained_all
    · intro l hl
      exact ⟨encodeLabels l, hkeys l hl, by simp⟩
    · exact hmapnodup
  have hpos : 0 < maxUnique := by omega
  obtain ⟨_, hok⟩ := dedup_fold_spec [List.range N] maxUnique
    (by simp) vecs [] [] (by simpa using hpos)
  obtain ⟨seen2, hfin⟩ := hok (by simpa [hret] using hcap)
  unfold dedupUnique
  rw [hfin]
  simp [Except.map, hret]

theorem identity_only_dedup_retains_all_witness :
    dedupUnique [List.range 2] 5
      ((List.sublistsLen 1 (List.range 2)).map
        (fun A => setLabels (zerosL 2) A 1)) =
      Except.ok ((List.sublistsLen 1 (List.range 2)).map
        (fun A => setLabels (zerosL 2) A 1)) :=
  identity_only_dedup_retains_all 2 5 [(1, 1)] (by decide) (by decide)
    (by decide) _ rfl (by decide)

/-- The numeric knobs of `ScanConfig` relevant to `_scan_one_folder`
(`_parse_scan_config` guarantees `topk`, `max_enum`, `max_unique` are
positive and the species strings non-empty). -/
structure ScanCfg where
  topk : Nat
  maxEnum : Nat
  maxUnique : Nat
  hostSpecies : String
  anionSpecies : List String

/-- `_infer_enumeration_sublattice` from `scan.py`: the enumerated
sublattice is every site whose species is not an anion; dopant counts
are tallied on it from the input structure, and a configuration error is
raised if the host species is absent.  `Counter` iteration order differs
from `List.dedup` order, but the caller immediately sorts the dopant
items, so the order of `dopantCounts` is irrelevant downstream. -/
def inferEnumerationSublattice (species : List String) (host : String)
    (anions : List String) :
    Except ScanError (List Nat × List (String × Nat) × Nat) :=
  let subSites := species.enum.filter (fun p => p.2 ∉ anions)
  let subIdx := subSites.map Prod.fst
  let subSpecies := subSites.map Prod.snd
  if host ∈ subSpecies then
    Except.ok (subIdx,
      (subSpecies.dedup.filter (fun el => el ≠ host)).map
        (fun el => (el, subSpecies.count el)),
      subSpecies.count host)
  else Except.error .missingHost

/-- `_estimate_num_configs` from `scan.py`: the product of binomial
coefficients for sequential placement, `remaining` shrinking by each
dopant count. -/
def estimateNumConfigs (nSites : Nat) (dopantCounts : List Nat) : Nat :=
  (dopantCounts.foldl
    (fun acc cnt => (acc.1 * Nat.choose acc.2 cnt, acc.2 - cnt))
    (1, nSites)).1

/-- The stable label mapping of `_scan_one_folder`: labels `1..k` in
sorted dopant-species order, applied to `sorted(dopant_counts.items())`. -/
def dopantLabelCounts (dopantsSorted : List (String × Nat)) :
    List (Nat × Nat) :=
  (List.range dopantsSorted.length).map
    (fun j => (j + 1, (dopantsSorted.getD j ("", 0)).2))

/-- `label_to_el`: label `0` is the host species, label `j ≥ 1` the
`j`-th dopant in sorted order. -/
def labelToEl (host : String) (dopantsSorted : List (String × Nat)) :
    Nat → String :=
  fun l => if l = 0 then host else (dopantsSorted.getD (l - 1) ("", 0)).1

theorem subSpecies_eq_aux (anions : List String) (species : List String) :
    ∀ n : Nat,
      (((List.enumFrom n species).filter (fun p => p.2 ∉ anions)).map
        Prod.snd) = species.filter (fun s => s ∉ anions) := by
  induction species with
  | nil => intro n; rfl
  | cons a l ih =>
    intro n
    show ((((n, a) :: List.enumFrom (n + 1) l).filter
      (fun p => p.2 ∉ anions)).map Prod.snd) = _
    by_cases h : a ∈ anions
    · rw [List.filter_cons_of_neg (by simpa using h),
        List.filter_cons_of_neg (by simpa using h)]
      exact ih (n + 1)
    · rw [List.filter_cons_of_pos (by simpa using h),
        List.filter_cons_of_pos (by simpa using h), List.map_cons]
      rw [ih (n + 1)]

theorem subSpecies_eq (species anions : List String) :
    ((species.enum.filter (fun p => p.2 ∉ anions)).map Prod.snd) =
      species.filter (fun s => s ∉ anions) :=
  subSpecies_eq_aux anions species 0

theorem infer_sum_eq (species : List String) (host : String)
    (anions : List String) (subIdx : List Nat)
    (dopantCounts : List (String × Nat)) (hostCount : Nat)
    (hok : inferEnumerationSublattice species host anions =
      Except.ok (subIdx, dopantCounts, hostCount)) :
    hostCount + (dopantCounts.map Prod.snd).sum = subIdx.length := by
  unfold inferEnumerationSublattice at hok
  by_cases hhost : host ∈
      (species.enum.filter (fun p => p.2 ∉ anions)).map Prod.snd
  · rw [if_pos hhost] at hok
    simp only [Except.ok.injEq, Prod.mk.injEq] at hok
    obtain ⟨hsi, hdc, hhc⟩ := hok
    set L := (species.enum.filter (fun p => p.2 ∉ anions)).map Prod.snd
      with hL
    have hlen : subIdx.length = L.length := by
      rw [← hsi, hL]
      simp
    have hdedup_mem : host ∈ L.dedup := List.mem_dedup.mpr hhost
    have hnd : L.dedup.Nodup := L.nodup_dedup
    have hperm : L.dedup.Perm (host :: L.dedup.erase host) :=
      List.perm_cons_erase hdedup_mem
    have htot : (L.dedup.map (fun x => L.count x)).sum = L.length :=
      List.sum_map_count_dedup_eq_length L
    have hsplit : (L.dedup.map (fun x => L.count x)).sum =
        L.count host + ((L.dedup.erase host).map (fun x => L.count x)).sum := by
      rw [(hperm.map (fun x => L.count x)).sum_eq]
      simp
    have herase : L.dedup.erase host = L.dedup.filter (fun el => el ≠ host) := by
      rw [hnd.erase_eq_filter]
      apply List.filter_congr
      intro a _
      by_cases h : a = host
      · subst h
        simp
      · simp [h, Ne.symm h]
    have hsum2 : (dopantCounts.map Prod.snd).sum =
        ((L.dedup.filter (fun el => el ≠ host)).map (fun x => L.count x)).sum := by
      rw [← hdc]
      rw [List.map_map]
      rfl
    rw [hlen, ← htot, hsplit, ← hhc, hsum2, herase]
  · rw [if_neg hhost] at hok
    cases hok

/-- The ordering key of the heap items, by score alone. -/
def byScore (a b : Int × List Nat) : Prop := a.1 ≤ b.1

instance instDecidableByScore : DecidableRel byScore :=
  fun a b => inferInstanceAs (Decidable (a.1 ≤ b.1))

/-- The comparator of `sorted(dopant_counts.items())` (distinct keys, so
comparing the species name suffices; python `sorted` is a stable sort,
modelled by the stable `insertionSort`). -/
def speciesLe (a b : String × Nat) : Prop := a.1 ≤ b.1

instance instDecidableSpeciesLe : DecidableRel speciesLe :=
  fun a b => inferInstanceAs (Decidable (a.1 ≤ b.1))

/-- The comparator of `sorted(..., key=lambda x: x[0])` in the result
assembly (again a stable sort). -/
def scoreLe (a b : Int × List Nat) : Prop := a.1 ≤ b.1

instance instDecidableScoreLe : DecidableRel scoreLe :=
  fun a b => inferInstanceAs (Decidable (a.1 ≤ b.1))

/-- One step of the selection loop of `_scan_one_folder` (lines
414-431), on the retained `(score, labels)` content of the heap `best`.
`heapq` on `(-E, done, labels)` tuples with pairwise-distinct `done`
realizes a max-priority queue keyed on the energy `E`; the heap content
is modelled as a list kept sorted ascending by score, whose last element
is the root (current maximum).  Below capacity every candidate is
inserted; at capacity the incoming candidate replaces the maximum only
when its score is strictly smaller (`heapreplace`).  Among equal scores
the modelled eviction may keep a different tied candidate than the
`done`-index tie-break of the tuple heap; every property stated below is
insensitive to that choice. -/
def topkPairStep (k : Nat) (st : List (Int × List Nat))
    (x : Int × List Nat) : List (Int × List Nat) :=
  if st.length < k then st.orderedInsert byScore x
  else if x.1 < (st.getLastD (0, [])).1 then
    (st.orderedInsert byScore x).dropLast
  else st

/-- The same selection loop restricted to the scores it compares — the
projection of `topkPairStep` used to state the multiset-of-scores
property. -/
def topkStep (k : Nat) (st : List Int) (x : Int) : List Int :=
  if st.length < k then st.orderedInsert (fun a b => a ≤ b) x
  else if x < st.getLastD 0 then
    (st.orderedInsert (fun a b => a ≤ b) x).dropLast
  else st

/-- The selection loop run over a completion-ordered stream of scores,
starting from the empty heap. -/
def topkRun (k : Nat) (scores : List Int) : List Int :=
  scores.foldl (topkStep k) []

/-- Consuming one result from `pool.imap_unordered`: a worker exception
propagates to the coordinator and aborts the iteration; a success
updates the heap. -/
def consumeStep (k : Nat) (st : List (Int × List Nat))
    (r : Except String (Int × List Nat)) :
    Except ScanError (List (Int × List Nat)) :=
  match r with
  | .error msg => .error (.scoringFailure msg)
  | .ok el => .ok (topkPairStep k st el)

/-- The whole result-consumption loop of `_scan_one_folder`: results
arrive in arbitrary completion order; the first failure aborts the
batch. -/
def consumeResults (k : Nat)
    (results : List (Except String (Int × List Nat))) :
    Except ScanError (List (Int × List Nat)) :=
  results.foldlM (consumeStep k) []

/-- One ranked output of the result assembly (a `candidate_NNN` entry):
rank, single-point energy, label vector, and the decorated sublattice
species (`label_to_el[labels[pos]]` written at each sublattice
position). -/
structure RankedCandidate where
  rank : Nat
  energy : Int
  labels : List Nat
  decorated : List String
deriving DecidableEq

/-- The species written on the sublattice positions by the decoration
loop `s[site_index] = label_to_el[int(labels[pos])]`. -/
def decorateSublattice (labels : List Nat) (l2e : Nat → String) :
    List String :=
  labels.map l2e

/-- The result assembly of `_scan_one_folder`: sort the drained heap
ascending by energy (`sorted(..., key=lambda x: x[0])`, a stable sort)
and emit rank-tagged decorated candidates. -/
def assembleRanked (best : List (Int × List Nat)) (l2e : Nat → String) :
    List RankedCandidate :=
  ((best.insertionSort scoreLe).enum).map
    (fun p => { rank := p.1 + 1, energy := p.2.1, labels := p.2.2,
                decorated := decorateSublattice p.2.2 l2e })

/-- `_scan_one_folder` after the structure is loaded, as a function of
the site species list, the discovered symmetry permutations, and the
completion-ordered scoring stream: infer the sublattice, raise the
raw-count sizing guard, check count consistency, build the stable label
mapping, enumerate, deduplicate under the unique ceiling, consume the
scoring results into the bounded heap, and assemble the ranked output.
File writing is out of scope: the ranked list is returned only when
every prior stage succeeded, mirroring that all writes happen after the
scoring loop. -/
def scanStage2 (cfg : ScanCfg) (perms : List (List Nat))
    (results : List (Except String (Int × List Nat)))
    (subIdx : List Nat) (dopantCounts : List (String × Nat))
    (hostCount : Nat) : Except ScanError (List RankedCandidate) :=
  if cfg.maxEnum <
      estimateNumConfigs subIdx.length (dopantCounts.map Prod.snd) then
    Except.error .tooManyRawConfigs
  else if hostCount + (dopantCounts.map Prod.snd).sum ≠ subIdx.length then
    Except.error .inconsistentCounts
  else
    ((enumerateLabelConfigs subIdx.length
        (dopantLabelCounts (dopantCounts.insertionSort speciesLe))).mapError
      (fun _ => ScanError.tooManyDopants)).bind
      (fun vecs => (dedupUnique perms cfg.maxUnique vecs).bind
        (fun _ => (consumeResults cfg.topk results).bind
          (fun best => Except.ok (assembleRanked best
            (labelToEl cfg.hostSpecies (dopantCounts.insertionSort speciesLe))))))

def scanOneFolderModel (cfg : ScanCfg) (species : List String)
    (perms : List (List Nat))
    (results : List (Except String (Int × List Nat))) :
    Except ScanError (List RankedCandidate) :=
  (inferEnumerationSublattice species cfg.hostSpecies cfg.anionSpecies).bind
    (fun r => scanStage2 cfg perms results r.1 r.2.1 r.2.2)

theorem dedupStep_error (perms : List (List Nat)) (maxUnique : Nat)
    (st : List Nat × List (List Nat)) (l : List Nat) (e : ScanError)
    (h : dedupStep perms maxUnique st l = .error e) :
    e = .emptyPermSet ∨ e = .uniqueCeiling := by
  unfold dedupStep at h
  split at h
  · left
    cases h
    rfl
  · split at h
    · cases h
    · split at h
      · right
        cases h
        rfl
      · cases h

theorem dedup_fold_error_class (perms : List (List Nat)) (maxUnique : Nat) :
    ∀ (vecs : List (List Nat)) (st : List Nat × List (List Nat))
      (e : ScanError),
      vecs.foldlM (dedupStep perms maxUnique) st = .error e →
      e = .emptyPermSet ∨ e = .uniqueCeiling := by
  intro vecs
  induction vecs with
  | nil =>
    intro st e h
    simp [List.foldlM_nil] at h
    cases h
  | cons l ls ih =>
    intro st e h
    rw [List.foldlM_cons] at h
    cases hstep : dedupStep perms maxUnique st l with
    | error e2 =>
      rw [hstep] at h
      have he : e2 = e := by
        cases h
        rfl
      exact he ▸ dedupStep_error perms maxUnique st l e2 hstep
    | ok st2 =>
      rw [hstep] at h
      exact ih st2 e h

theorem dedupUnique_error_class (perms : List (List Nat)) (maxUnique : Nat)
    (vecs : List (List Nat)) (e : ScanError)
    (h : dedupUnique perms maxUnique vecs = .error e) :
    e = .emptyPermSet ∨ e = .uniqueCeiling := by
  unfold dedupUnique at h
  cases hf : vecs.foldlM (dedupStep perms maxUnique) ([], []) with
  | error e2 =>
    rw [hf] at h
    have he : e2 = e := by
      cases h
      rfl
    exact he ▸ dedup_fold_error_class perms maxUnique vecs ([], []) e2 hf
  | ok st =>
    rw [hf] at h
    cases h

theorem consumeResults_error_class (k : Nat) :
    ∀ (results : List (Except String (Int × List Nat)))
      (st : List (Int × List Nat)) (e : ScanError),
      results.foldlM (consumeStep k) st = .error e →
      ∃ msg, e = .scoringFailure msg := by
  intro results
  induction results with
  | nil =>
    intro st e h
    simp [List.foldlM_nil] at h
    cases h
  | cons r rs ih =>
    intro st e h
    rw [List.foldlM_cons] at h
    cases r with
    | error msg =>
      have hstep : consumeStep k st (.error msg) =
          .error (.scoringFailure msg) := rfl
      rw [hstep] at h
      refine ⟨msg, ?_⟩
      cases h
      rfl
    | ok el =>
      have hstep : consumeStep k st (.ok el) = .ok (topkPairStep k st el) := rfl
      rw [hstep] at h
      exact ih (topkPairStep k st el) e h

theorem consumeResults_error_class2 (k : Nat)
    (results : List (Except String (Int × List Nat))) (e : ScanError)
    (h : consumeResults k results = .error e) :
    ∃ msg, e = .scoringFailure msg :=
  consumeResults_error_class k results [] e h

theorem mapError_tooManyDopants (x : Except String (List (List Nat)))
    (e : ScanError)
    (h : x.mapError (fun _ => ScanError.tooManyDopants) = .error e) :
    e = .tooManyDopants := by
  cases x with
  | error msg =>
    simp only [Except.mapError] at h
    cases h
    rfl
  | ok v => simp [Except.mapError] at h

theorem scanStage2_result (cfg : ScanCfg) (perms : List (List Nat))
    (results : List (Except String (Int × List Nat)))
    (si : List Nat) (dc : List (String × Nat)) (hc : Nat)
    (hle : estimateNumConfigs si.length (dc.map Prod.snd) ≤ cfg.maxEnum)
    (hsum : hc + (dc.map Prod.snd).sum = si.length) :
    (∃ out, scanStage2 cfg perms results si dc hc = .ok out) ∨
    ∃ e, scanStage2 cfg perms results si dc hc = .error e ∧
      (e = .tooManyDopants ∨ e = .emptyPermSet ∨ e = .uniqueCeiling ∨
        ∃ msg, e = .scoringFailure msg) := by
  unfold scanStage2
  rw [if_neg (not_lt.mpr hle), if_neg (fun hne => hne hsum)]
  cases henum : (enumerateLabelConfigs si.length
      (dopantLabelCounts (dc.insertionSort speciesLe))).mapError
      (fun _ => ScanError.tooManyDopants) with
  | error e =>
    right
    refine ⟨e, by simp [Except.bind], Or.inl ?_⟩
    exact mapError_tooManyDopants _ e henum
  | ok vecs =>
    simp only [Except.bind]
    cases hded : dedupUnique perms cfg.maxUnique vecs with
    | error e =>
      right
      refine ⟨e, rfl, ?_⟩
      rcases dedupUnique_error_class perms cfg.maxUnique vecs e hded with he | he
      · exact Or.inr (Or.inl he)
      · exact Or.inr (Or.inr (Or.inl he))
    | ok uniq =>
      cases hcons : consumeResults cfg.topk results with
      | error e =>
        right
        refine ⟨e, rfl, ?_⟩
        exact Or.inr (Or.inr (Or.inr (consumeResults_error_class2 _ _ e hcons)))
      | ok best =>
        left
        exact ⟨_, rfl⟩

/-- C4: if the raw-configuration estimate (product of sequential
binomial coefficients) exceeds `max_enum`, `_scan_one_folder` fails with
the raw-count sizing error whatever the scoring stream holds — i.e.
strictly before enumeration, deduplication or any scoring result is
consumed; if the estimate is within the ceiling, the raw-count error is
never raised. -/
theorem raw_count_guard (cfg : ScanCfg) (species : List String)
    (perms : List (List Nat)) (subIdx : List Nat)
    (dopantCounts : List (String × Nat)) (hostCount : Nat)
    (hinfer : inferEnumerationSublattice species cfg.hostSpecies
      cfg.anionSpecies = Except.ok (subIdx, dopantCounts, hostCount)) :
    (cfg.maxEnum <
        estimateNumConfigs subIdx.length (dopantCounts.map Prod.snd) →
      ∀ results, scanOneFolderModel cfg species perms results =
        Except.error .tooManyRawConfigs) ∧
    (estimateNumConfigs subIdx.length (dopantCounts.map Prod.snd) ≤
        cfg.maxEnum →
      ∀ results, scanOneFolderModel cfg species perms results ≠
        Except.error .tooManyRawConfigs) := by
  have hred : ∀ results, scanOneFolderModel cfg species perms results =
      scanStage2 cfg perms results subIdx dopantCounts hostCount := by
    intro results
    unfold scanOneFolderModel
    rw [hinfer]
    rfl
  constructor
  · intro hgt results
    rw [hred results]
    unfold scanStage2
    rw [if_pos hgt]
  · intro hle results
    rw [hred results]
    have hsum := infer_sum_eq species cfg.hostSpecies cfg.anionSpecies
      subIdx dopantCounts hostCount hinfer
    rcases scanStage2_result cfg perms results subIdx dopantCounts hostCount
      hle hsum with ⟨out, hout⟩ | ⟨e, herr, hclass⟩
    · rw [hout]
      intro habs
      cases habs
    · rw [herr]
      intro habs
      have he : e = .tooManyRawConfigs := by
        cases habs
        rfl
      subst he
      rcases hclass with h | h | h | ⟨msg, h⟩ <;> cases h

theorem raw_count_guard_witness :
    scanOneFolderModel ⟨2, 2, 100, "A", ["X"]⟩ ["A", "B", "X", "A"]
      [[0, 1, 2]] [] = Except.error .tooManyRawConfigs :=
  (raw_count_guard ⟨2, 2, 100, "A", ["X"]⟩ ["A", "B", "X", "A"]
    [[0, 1, 2]] [0, 1, 3] [("B", 1)] 2 rfl).1 (by decide) []

/-- C10: `_infer_enumeration_sublattice` returns counts satisfying
`host_count + Σ dopant_counts = len(sub_idx)` — every non-anion site
contributes one index and exactly one species tally — and consequently
the `Counts inconsistent with sublattice size.` branch in
`_scan_one_folder` can never execute. -/
theorem infer_counts_consistent (species : List String) (host : String)
    (anions : List String) :
    (∀ subIdx dopantCounts hostCount,
      inferEnumerationSublattice species host anions =
        Except.ok (subIdx, dopantCounts, hostCount) →
      hostCount + (dopantCounts.map Prod.snd).sum = subIdx.length) ∧
    ∀ cfg : ScanCfg, cfg.hostSpecies = host → cfg.anionSpecies = anions →
      ∀ perms results,
        scanOneFolderModel cfg species perms results ≠
          Except.error .inconsistentCounts := by
  refine ⟨fun si dc hc h => infer_sum_eq species host anions si dc hc h, ?_⟩
  intro cfg hh ha perms results habs
  unfold scanOneFolderModel at habs
  cases hinf : inferEnumerationSublattice species cfg.hostSpecies
      cfg.anionSpecies with
  | error e =>
    rw [hinf] at habs
    simp only [Except.bind] at habs
    have he : e = .missingHost := by
      unfold inferEnumerationSublattice at hinf
      dsimp only at hinf
      split at hinf
      · cases hinf
      · cases hinf
        rfl
    rw [he] at habs
    cases habs
  | ok r =>
    rw [hinf] at habs
    simp only [Except.bind] at habs
    obtain ⟨si, dc, hc⟩ := r
    have hsum : hc + (dc.map Prod.snd).sum = si.length := by
      apply infer_sum_eq species cfg.hostSpecies cfg.anionSpecies si dc hc
      exact hinf
    by_cases hraw : cfg.maxEnum <
        estimateNumConfigs si.length (dc.map Prod.snd)
    · unfold scanStage2 at habs
      rw [if_pos hraw] at habs
      cases habs
    · rcases scanStage2_result cfg perms results si dc hc
        (not_lt.mp hraw) hsum with ⟨out, hout⟩ | ⟨e, herr, hclass⟩
      · rw [hout] at habs
        cases habs
      · rw [herr] at habs
        have he : e = .inconsistentCounts := by
          cases habs
          rfl
        subst he
        rcases hclass with h | h | h | ⟨msg, h⟩ <;> cases h

theorem infer_counts_consistent_witness :
    2 + ([(("B" : String), 1)].map Prod.snd).sum =
      ([0, 1, 3] : List Nat).length :=
  (infer_counts_consistent ["A", "B", "X", "A"] "A" ["X"]).1
    [0, 1, 3] [("B", 1)] 2 rfl

theorem getLastD_congr (l : List Int) (d1 d2 : Int) (h : l ≠ []) :
    l.getLastD d1 = l.getLastD d2 := by
  cases l with
  | nil => exact absurd rfl h
  | cons a l => rw [List.getLastD_cons, List.getLastD_cons]

theorem sorted_le_getLastD : ∀ (u : List Int), u.Sorted (· ≤ ·) →
    ∀ a ∈ u, a ≤ u.getLastD 0 := by
  intro u
  induction u with
  | nil =>
    intro _ a ha
    cases ha
  | cons b u ih =>
    intro hs a ha
    rw [List.getLastD_cons]
    cases u with
    | nil =>
      rw [List.mem_singleton] at ha
      subst ha
      exact le_refl a
    | cons c u2 =>
      rw [getLastD_congr (c :: u2) b 0 (by simp)]
      rcases List.mem_cons.mp ha with rfl | ha2
      · have hbc : a ≤ c := (List.sorted_cons.mp hs).1 c (by simp)
        have hcl : c ≤ (c :: u2).getLastD 0 :=
          ih (List.sorted_cons.mp hs).2 c (by simp)
        exact le_trans hbc hcl
      · exact ih (List.sorted_cons.mp hs).2 a ha2

theorem orderedInsert_cons_eq (x a : Int) (l : List Int) :
    (a :: l).orderedInsert (· ≤ ·) x =
      if x ≤ a then x :: a :: l else a :: l.orderedInsert (· ≤ ·) x := rfl

theorem take_orderedInsert_all_le (x : Int) :
    ∀ (u w : List Int), (u ++ w).Sorted (· ≤ ·) → (∀ a ∈ u, a ≤ x) →
      ((u ++ w).orderedInsert (· ≤ ·) x).take u.length = u := by
  intro u
  induction u with
  | nil =>
    intro w _ _
    simp
  | cons a u ih =>
    intro w hs hle
    have ha : a ≤ x := hle a (by simp)
    show (List.orderedInsert (· ≤ ·) x (a :: (u ++ w))).take (u.length + 1) =
      a :: u
    by_cases hxa : x ≤ a
    · have hax : a = x := le_antisymm ha hxa
      rw [orderedInsert_cons_eq, if_pos hxa]
      have hall : ∀ y ∈ a :: u, y = x := by
        intro y hy
        rcases List.mem_cons.mp hy with rfl | hy2
        · exact hax
        · have h1 : a ≤ y := (List.sorted_cons.mp hs).1 y (by simp [hy2])
          have h2 : y ≤ x := hle y (by simp [hy2])
          omega
      have hrep : a :: u = List.replicate (u.length + 1) x := by
        rw [List.eq_replicate]
        exact ⟨by simp, hall⟩
      rw [List.take_succ_cons]
      have hassoc : a :: (u ++ w) = (a :: u) ++ w := rfl
      rw [hassoc, hrep]
      rw [List.take_append_of_le_length (by simp)]
      rw [List.take_replicate]
      rw [show min u.length (u.length + 1) = u.length by omega]
      rw [List.replicate_succ]
    · rw [orderedInsert_cons_eq, if_neg hxa]
      rw [List.take_succ_cons]
      rw [ih w (List.sorted_cons.mp hs).2
        (fun y hy => hle y (List.mem_cons_of_mem a hy))]

theorem take_orderedInsert_lt_last (x : Int) :
    ∀ (u w : List Int), u ≠ [] → (u ++ w).Sorted (· ≤ ·) →
      x < u.getLastD 0 →
      ((u ++ w).orderedInsert (· ≤ ·) x).take u.length =
        (u.orderedInsert (· ≤ ·) x).dropLast := by
  intro u
  induction u with
  | nil =>
    intro w h
    exact absurd rfl h
  | cons a u ih =>
    intro w _ hs hlast
    cases u with
    | nil =>
      have hxa : x < a := by simpa using hlast
      show (List.orderedInsert (· ≤ ·) x (a :: w)).take 1 =
        (List.orderedInsert (· ≤ ·) x [a]).dropLast
      rw [orderedInsert_cons_eq, if_pos (le_of_lt hxa),
        orderedInsert_cons_eq, if_pos (le_of_lt hxa)]
      simp
    | cons b u2 =>
      have hlast2 : x < (b :: u2).getLastD 0 := by
        rw [List.getLastD_cons, getLastD_congr (b :: u2) a 0 (by simp)]
          at hlast
        exact hlast
      by_cases hxa : x ≤ a
      · show (List.orderedInsert (· ≤ ·) x (a :: (b :: u2 ++ w))).take
            (u2.length + 2) = _
        rw [orderedInsert_cons_eq, if_pos hxa,
          orderedInsert_cons_eq, if_pos hxa]
        rw [List.take_succ_cons]
        have htk : ((a :: b :: u2) ++ w).take (u2.length + 1) =
            (a :: b :: u2).take (u2.length + 1) :=
          List.take_append_of_le_length (by simp)
        have hdl : (x :: a :: b :: u2).dropLast =
            x :: (a :: b :: u2).dropLast := by
          rw [List.dropLast_cons₂]
        rw [hdl]
        have hdl2 : (a :: b :: u2).dropLast = (a :: b :: u2).take
            (u2.length + 1) := by
          simp [List.dropLast_eq_take]
        rw [hdl2]
        show x :: ((a :: b :: u2) ++ w).take (u2.length + 1) = _
        rw [htk]
      · show (List.orderedInsert (· ≤ ·) x (a :: (b :: u2 ++ w))).take
            (u2.length + 2) = _
        rw [orderedInsert_cons_eq, if_neg hxa,
          orderedInsert_cons_eq, if_neg hxa]
        rw [List.take_succ_cons]
        have ih2 := ih w (by simp) (List.sorted_cons.mp hs).2 hlast2
        simp only [List.length_cons] at ih2
        rw [ih2]
        cases hL : List.orderedInsert (· ≤ ·) x (b :: u2) with
        | nil =>
          have := List.orderedInsert_length (· ≤ ·) (b :: u2) x
          rw [hL] at this
          simp at this
        | cons c cs =>
          rw [List.dropLast_cons₂]

theorem take_orderedInsert_sorted (k : Nat) (x : Int) (l : List Int)
    (hs : l.Sorted (· ≤ ·)) :
    (l.orderedInsert (· ≤ ·) x).take k = topkStep k (l.take k) x := by
  by_cases hlen : l.length < k
  · have htk : l.take k = l := List.take_of_length_le (le_of_lt hlen)
    unfold topkStep
    rw [htk, if_pos hlen]
    apply List.take_of_length_le
    rw [List.orderedInsert_length]
    omega
  · push_neg at hlen
    rcases Nat.eq_zero_or_pos k with rfl | hk
    · unfold topkStep
      simp only [List.take_zero, List.length_nil, Nat.lt_irrefl, if_false]
      by_cases hx : x < ([] : List Int).getLastD 0
      · rw [if_pos hx]
        simp
      · rw [if_neg hx]
    · have hu : l = l.take k ++ l.drop k := (List.take_append_drop k l).symm
      have hulen : (l.take k).length = k := by
        rw [List.length_take]
        omega
      have hune : l.take k ≠ [] := by
        intro habs
        rw [habs] at hulen
        simp at hulen
        omega
      have hsu : (l.take k ++ l.drop k).Sorted (· ≤ ·) := by
        rw [← hu]
        exact hs
      unfold topkStep
      rw [if_neg (by rw [hulen]; omega)]
      by_cases hx : x < (l.take k).getLastD 0
      · rw [if_pos hx]
        have hthis := take_orderedInsert_lt_last x (l.take k) (l.drop k)
          hune hsu hx
        rw [← hu, hulen] at hthis
        exact hthis
      · rw [if_neg hx]
        have hsortu : (l.take k).Sorted (· ≤ ·) := by
          have hp := (List.pairwise_append.mp hsu).1
          exact hp
        have hall : ∀ a ∈ l.take k, a ≤ x := fun a ha =>
          le_trans (sorted_le_getLastD (l.take k) hsortu a ha)
            (not_lt.mp hx)
        have hthis := take_orderedInsert_all_le x (l.take k) (l.drop k)
          hsu hall
        rw [← hu, hulen] at hthis
        exact hthis

theorem topkRun_eq_take_sort (k : Nat) :
    ∀ (xs : List Int),
      topkRun k xs = ((xs.insertionSort (· ≤ ·)).take k) := by
  intro xs
  induction xs using List.reverseRecOn with
  | nil => simp [topkRun]
  | append_singleton ys y ih =>
    show (ys ++ [y]).foldl (topkStep k) [] = _
    rw [List.foldl_append]
    have hperm2 : ((ys ++ [y]).insertionSort (· ≤ ·)).Perm
        ((ys.insertionSort (· ≤ ·)).orderedInsert (· ≤ ·) y) :=
      (List.perm_insertionSort (· ≤ ·) (ys ++ [y])).trans
        ((List.perm_append_singleton y ys).trans
          (((List.perm_insertionSort (· ≤ ·) ys).symm.cons y).trans
            (List.perm_orderedInsert (· ≤ ·) y _).symm))
    have hsort : ((ys ++ [y]).insertionSort (· ≤ ·)) =
        (ys.insertionSort (· ≤ ·)).orderedInsert (· ≤ ·) y :=
      List.eq_of_perm_of_sorted hperm2
        (List.sorted_insertionSort (· ≤ ·) (ys ++ [y]))
        ((List.sorted_insertionSort (· ≤ ·) ys).orderedInsert y _)
    rw [hsort, take_orderedInsert_sorted k y (ys.insertionSort (· ≤ ·))
      (List.sorted_insertionSort (· ≤ ·) ys)]
    show topkStep k (topkRun k ys) y = _
    rw [ih]

/-- C1: the selection loop of `_scan_one_folder` (insert every incoming
candidate while `len(best) < topk`; once full, `heapreplace` the current
maximum only when the incoming score is strictly smaller) retains, for
every finite stream of scores, exactly the `topk` smallest scores of the
stream (all of them when the stream is shorter), as a sorted list —
hence as a multiset — and the outcome is identical for every
arrival-order permutation of the stream. -/
theorem streaming_topk_correct (k : Nat) (xs ys : List Int)
    (hperm : xs.Perm ys) :
    topkRun k xs = ((xs.insertionSort (· ≤ ·)).take k) ∧
      topkRun k xs = topkRun k ys := by
  refine ⟨topkRun_eq_take_sort k xs, ?_⟩
  rw [topkRun_eq_take_sort k xs, topkRun_eq_take_sort k ys]
  congr 1
  exact List.eq_of_perm_of_sorted
    ((List.perm_insertionSort (· ≤ ·) xs).trans
      (hperm.trans (List.perm_insertionSort (· ≤ ·) ys).symm))
    (List.sorted_insertionSort (· ≤ ·) xs)
    (List.sorted_insertionSort (· ≤ ·) ys)

theorem streaming_topk_correct_witness :
    topkRun 2 [10, 2, 6, 1] =
        (([10, 2, 6, 1].insertionSort (· ≤ ·)).take 2) ∧
      topkRun 2 [10, 2, 6, 1] = topkRun 2 [1, 6, 2, 10] :=
  streaming_topk_correct 2 [10, 2, 6, 1] [1, 6, 2, 10] (by decide)

theorem consume_fails_of_mem (k : Nat) :
    ∀ (results : List (Except String (Int × List Nat)))
      (st : List (Int × List Nat)) (msg : String),
      Except.error msg ∈ results →
      ∃ msg2, results.foldlM (consumeStep k) st =
        .error (.scoringFailure msg2) := by
  intro results
  induction results with
  | nil =>
    intro st msg h
    cases h
  | cons r rs ih =>
    intro st msg h
    rw [List.foldlM_cons]
    cases r with
    | error m =>
      refine ⟨m, ?_⟩
      have hstep : consumeStep k st (.error m) =
          .error (.scoringFailure m) := rfl
      rw [hstep]
      rfl
    | ok el =>
      have hmem : Except.error msg ∈ rs := by
        rcases List.mem_cons.mp h with heq | hmem
        · cases heq
        · exact hmem
      have hstep : consumeStep k st (.ok el) =
          .ok (topkPairStep k st el) := rfl
      rw [hstep]
      show ∃ msg2, rs.foldlM (consumeStep k) (topkPairStep k st el) =
        .error (.scoringFailure msg2)
      exact ih (topkPairStep k st el) msg hmem

theorem mapError_ok (x : Except String (List (List Nat)))
    (v : List (List Nat))
    (h : x.mapError (fun _ => ScanError.tooManyDopants) = .ok v) :
    x = .ok v := by
  cases x with
  | error m => simp [Except.mapError] at h
  | ok w =>
    simp only [Except.mapError, Except.ok.injEq] at h
    rw [h]

theorem scanOneFolderModel_ok_inversion (cfg : ScanCfg)
    (species : List String) (perms : List (List Nat))
    (results : List (Except String (Int × List Nat)))
    (out : List RankedCandidate)
    (h : scanOneFolderModel cfg species perms results = Except.ok out) :
    ∃ subIdx dopantCounts hostCount vecs uniq best,
      inferEnumerationSublattice species cfg.hostSpecies cfg.anionSpecies =
        Except.ok (subIdx, dopantCounts, hostCount) ∧
      enumerateLabelConfigs subIdx.length
        (dopantLabelCounts (dopantCounts.insertionSort speciesLe)) =
        Except.ok vecs ∧
      dedupUnique perms cfg.maxUnique vecs = Except.ok uniq ∧
      consumeResults cfg.topk results = Except.ok best ∧
      out = assembleRanked best
        (labelToEl cfg.hostSpecies (dopantCounts.insertionSort speciesLe)) := by
  unfold scanOneFolderModel at h
  cases hinf : inferEnumerationSublattice species cfg.hostSpecies
      cfg.anionSpecies with
  | error e =>
    rw [hinf] at h
    simp only [Except.bind] at h
    cases h
  | ok r =>
    rw [hinf] at h
    simp only [Except.bind] at h
    obtain ⟨si, dc, hc⟩ := r
    unfold scanStage2 at h
    by_cases hraw : cfg.maxEnum <
        estimateNumConfigs si.length (dc.map Prod.snd)
    · rw [if_pos hraw] at h
      cases h
    · rw [if_neg hraw] at h
      by_cases hcons2 : hc + (dc.map Prod.snd).sum ≠ si.length
      · rw [if_pos hcons2] at h
        cases h
      · rw [if_neg hcons2] at h
        cases henum : (enumerateLabelConfigs si.length
            (dopantLabelCounts (dc.insertionSort speciesLe))).mapError
            (fun _ => ScanError.tooManyDopants) with
        | error e =>
          rw [henum] at h
          simp only [Except.bind] at h
          cases h
        | ok vecs =>
          rw [henum] at h
          simp only [Except.bind] at h
          cases hded : dedupUnique perms cfg.maxUnique vecs with
          | error e =>
            rw [hded] at h
            cases h
          | ok uniq =>
            rw [hded] at h
            cases hcons3 : consumeResults cfg.topk results with
            | error e =>
              rw [hcons3] at h
              cases h
            | ok best =>
              rw [hcons3] at h
              refine ⟨si, dc, hc, vecs, uniq, best, rfl,
                mapError_ok _ vecs henum, hded, rfl, ?_⟩
              have hout : Except.ok (assembleRanked best
                  (labelToEl cfg.hostSpecies (dc.insertionSort speciesLe))) =
                  Except.ok out := h
              cases hout
              rfl

/-- C5: if any single scoring invocation fails (a worker exception in
the stream of `pool.imap_unordered` results), the consumption loop in
`_scan_one_folder` propagates it and the batch aborts: the model never
reaches its output stage, so no candidate POSCAR or meta.json, no
`ranking_scan.csv` and no `scan_summary.txt` can be written — all output
writing in the source happens strictly after every scoring result has
been consumed successfully. -/
theorem scoring_failure_aborts (cfg : ScanCfg) (species : List String)
    (perms : List (List Nat))
    (results : List (Except String (Int × List Nat))) (msg : String)
    (hfail : Except.error msg ∈ results) :
    (∃ msg2, consumeResults cfg.topk results =
      Except.error (.scoringFailure msg2)) ∧
    ∀ out, scanOneFolderModel cfg species perms results ≠
      Except.ok out := by
  obtain ⟨msg2, hcons⟩ := consume_fails_of_mem cfg.topk results [] msg hfail
  refine ⟨⟨msg2, hcons⟩, ?_⟩
  intro out habs
  obtain ⟨_, _, _, _, _, best, _, _, _, hconsok, _⟩ :=
    scanOneFolderModel_ok_inversion cfg species perms results out habs
  rw [consumeResults] at hconsok
  rw [hcons] at hconsok
  cases hconsok

theorem scoring_failure_aborts_witness :
    (∃ msg2, consumeResults 2 [Except.error "worker failed"] =
      Except.error (.scoringFailure msg2)) ∧
    ∀ out, scanOneFolderModel ⟨2, 100, 100, "A", ["X"]⟩ ["A", "B", "X", "A"]
      [[0, 1, 2]] [Except.error "worker failed"] ≠ Except.ok out :=
  scoring_failure_aborts ⟨2, 100, 100, "A", ["X"]⟩ ["A", "B", "X", "A"]
    [[0, 1, 2]] [Except.error "worker failed"] "worker failed" (by simp)

theorem topkPairStep_subset (k : Nat) (st : List (Int × List Nat))
    (x : Int × List Nat) :
    ∀ y ∈ topkPairStep k st x, y ∈ st ∨ y = x := by
  intro y hy
  unfold topkPairStep at hy
  split at hy
  · rcases (List.mem_orderedInsert byScore).mp hy with heq | hmem
    · right
      exact heq
    · left
      exact hmem
  · split at hy
    · have hy2 := (List.dropLast_sublist _).subset hy
      rcases (List.mem_orderedInsert byScore).mp hy2 with heq | hmem
      · right
        exact heq
      · left
        exact hmem
    · left
      exact hy

theorem consume_fold_subset (k : Nat) :
    ∀ (results : List (Except String (Int × List Nat)))
      (st best : List (Int × List Nat)),
      results.foldlM (consumeStep k) st = .ok best →
      ∀ y ∈ best, y ∈ st ∨ Except.ok y ∈ results := by
  intro results
  induction results with
  | nil =>
    intro st best h y hy
    left
    have hb : st = best := by
      cases h
      rfl
    rw [← hb] at hy
    exact hy
  | cons r rs ih =>
    intro st best h y hy
    rw [List.foldlM_cons] at h
    cases r with
    | error m =>
      have hstep : consumeStep k st (.error m) =
          .error (.scoringFailure m) := rfl
      rw [hstep] at h
      cases h
    | ok el =>
      have hstep : consumeStep k st (.ok el) =
          .ok (topkPairStep k st el) := rfl
      rw [hstep] at h
      have h2 : rs.foldlM (consumeStep k) (topkPairStep k st el) =
          .ok best := h
      rcases ih (topkPairStep k st el) best h2 y hy with hmem | hmem
      · rcases topkPairStep_subset k st el y hmem with hst | heq
        · left
          exact hst
        · right
          rw [heq]
          exact List.mem_cons_self _ _
      · right
        exact List.mem_cons_of_mem _ hmem

theorem dedupStep_ok (perms : List (List Nat)) (maxUnique : Nat)
    (st st2 : List Nat × List (List Nat)) (l : List Nat)
    (h : dedupStep perms maxUnique st l = .ok st2) :
    st2.2 = st.2 ∨ st2.2 = st.2 ++ [l] := by
  unfold dedupStep at h
  split at h
  · cases h
  · split at h
    · left
      cases h
      rfl
    · split at h
      · cases h
      · right
        cases h
        rfl

theorem dedup_fold_subset (perms : List (List Nat)) (maxUnique : Nat) :
    ∀ (vecs : List (List Nat)) (st stOut : List Nat × List (List Nat)),
      vecs.foldlM (dedupStep perms maxUnique) st = .ok stOut →
      ∀ lab ∈ stOut.2, lab ∈ st.2 ∨ lab ∈ vecs := by
  intro vecs
  induction vecs with
  | nil =>
    intro st stOut h lab hlab
    left
    have hb : st = stOut := by
      cases h
      rfl
    rw [hb]
    exact hlab
  | cons l ls ih =>
    intro st stOut h lab hlab
    rw [List.foldlM_cons] at h
    cases hstep : dedupStep perms maxUnique st l with
    | error e =>
      rw [hstep] at h
      cases h
    | ok st2 =>
      rw [hstep] at h
      have h2 : ls.foldlM (dedupStep perms maxUnique) st2 = .ok stOut := h
      rcases ih st2 stOut h2 lab hlab with hmem | hmem
      · rcases dedupStep_ok perms maxUnique st st2 l hstep with he | he
        · rw [he] at hmem
          left
          exact hmem
        · rw [he] at hmem
          rcases List.mem_append.mp hmem with hmem2 | hmem2
          · left
            exact hmem2
          · right
            rw [List.mem_singleton] at hmem2
            rw [hmem2]
            exact List.mem_cons_self _ _
      · right
        exact List.mem_cons_of_mem _ hmem

theorem dedupUnique_subset (perms : List (List Nat)) (maxUnique : Nat)
    (vecs uniq : List (List Nat))
    (h : dedupUnique perms maxUnique vecs = .ok uniq) :
    ∀ lab ∈ uniq, lab ∈ vecs := by
  intro lab hlab
  unfold dedupUnique at h
  cases hf : vecs.foldlM (dedupStep perms maxUnique) ([], []) with
  | error e =>
    rw [hf] at h
    cases h
  | ok st =>
    rw [hf] at h
    have hu : st.2 = uniq := by
      cases h
      rfl
    rcases dedup_fold_subset perms maxUnique vecs ([], []) st hf lab
      (by rw [hu]; exact hlab) with hmem | hmem
    · cases hmem
    · exact hmem

theorem infer_dopant_names (species : List String) (host : String)
    (anions : List String) (si : List Nat) (dc : List (String × Nat))
    (hc : Nat)
    (hok : inferEnumerationSublattice species host anions =
      Except.ok (si, dc, hc)) :
    (dc.map Prod.fst).Nodup ∧ host ∉ dc.map Prod.fst := by
  unfold inferEnumerationSublattice at hok
  by_cases hhost : host ∈
      (species.enum.filter (fun p => p.2 ∉ anions)).map Prod.snd
  · rw [if_pos hhost] at hok
    simp only [Except.ok.injEq, Prod.mk.injEq] at hok
    obtain ⟨_, hdc, _⟩ := hok
    set L := (species.enum.filter (fun p => p.2 ∉ anions)).map Prod.snd
    have hfst : dc.map Prod.fst = L.dedup.filter (fun el => el ≠ host) := by
      rw [← hdc, List.map_map]
      exact List.map_id _
    constructor
    · rw [hfst]
      exact (L.nodup_dedup).filter _
    · rw [hfst]
      intro habs
      have := List.of_mem_filter habs
      simp at this
  · rw [if_neg hhost] at hok
    cases hok

theorem dopantLabelCounts_nonzero (ds : List (String × Nat)) :
    ∀ pr ∈ dopantLabelCounts ds, pr.1 ≠ 0 := by
  intro pr hpr
  obtain ⟨j, _, heq⟩ := List.mem_map.mp hpr
  rw [← heq]
  simp

theorem dopantLabelCounts_fst_nodup (ds : List (String × Nat)) :
    ((dopantLabelCounts ds).map Prod.fst).Nodup := by
  unfold dopantLabelCounts
  rw [List.map_map]
  apply List.Nodup.map_on
  · intro a _ b _ h
    simpa using h
  · exact List.nodup_range _

theorem dopantLabelCounts_mem_of_lt (ds : List (String × Nat)) (j : Nat)
    (hj : j < ds.length) :
    (j + 1, (ds.getD j ("", 0)).2) ∈ dopantLabelCounts ds :=
  List.mem_map.mpr ⟨j, List.mem_range.mpr hj, rfl⟩

theorem range_map_getD_snd (ds : List (String × Nat)) :
    (List.range ds.length).map (fun j => (ds.getD j ("", 0)).2) =
      ds.map Prod.snd := by
  apply List.ext_get
  · simp
  · intro i h1 h2
    rw [List.get_map, List.get_map]
    simp only [List.get_range]
    have hi : i < ds.length := by simpa using h2
    rw [List.getD_eq_getElem _ _ hi, List.get_eq_getElem]

theorem count_map_eq_of_inj (l : List Nat) (f : Nat → String) (j : Nat)
    (hdom : ∀ x ∈ l, f x = f j → x = j) :
    (l.map f).count (f j) = l.count j := by
  induction l with
  | nil => rfl
  | cons a l ih =>
    rw [List.map_cons, List.count_cons, List.count_cons,
      ih (fun x hx => hdom x (List.mem_cons_of_mem a hx))]
    congr 1
    by_cases ha : a = j
    · subst ha
      simp
    · have hne : f a ≠ f j := fun he => ha (hdom a (List.mem_cons_self a l) he)
      simp [ha, hne]

theorem labelToEl_count (host : String) (ds : List (String × Nat))
    (hnd : (ds.map Prod.fst).Nodup) (hhost : host ∉ ds.map Prod.fst)
    (lab : List Nat) (hent : ∀ x ∈ lab, x ≤ ds.length) (j : Nat)
    (hj : j ≤ ds.length) :
    (lab.map (labelToEl host ds)).count (labelToEl host ds j) =
      lab.count j := by
  apply count_map_eq_of_inj
  intro x hx heq
  have hxle := hent x hx
  by_cases hx0 : x = 0
  · subst hx0
    by_cases hj0 : j = 0
    · rw [hj0]
    · exfalso
      unfold labelToEl at heq
      rw [if_pos rfl, if_neg hj0] at heq
      apply hhost
      rw [heq]
      have hjlt : j - 1 < ds.length := by omega
      rw [List.getD_eq_getElem _ _ hjlt]
      exact List.mem_map.mpr ⟨_, List.getElem_mem hjlt, rfl⟩
  · by_cases hj0 : j = 0
    · exfalso
      unfold labelToEl at heq
      rw [if_neg hx0, if_pos hj0] at heq
      apply hhost
      rw [← heq]
      have hxlt : x - 1 < ds.length := by omega
      rw [List.getD_eq_getElem _ _ hxlt]
      exact List.mem_map.mpr ⟨_, List.getElem_mem hxlt, rfl⟩
    · unfold labelToEl at heq
      rw [if_neg hx0, if_neg hj0] at heq
      have hxlt : x - 1 < ds.length := by omega
      have hjlt : j - 1 < ds.length := by omega
      rw [List.getD_eq_getElem _ _ hxlt, List.getD_eq_getElem _ _ hjlt]
        at heq
      have hxlt2 : x - 1 < (ds.map Prod.fst).length := by
        rw [List.length_map]
        omega
      have hjlt2 : j - 1 < (ds.map Prod.fst).length := by
        rw [List.length_map]
        omega
      have hget : (ds.map Prod.fst).get ⟨x - 1, hxlt2⟩ =
          (ds.map Prod.fst).get ⟨j - 1, hjlt2⟩ := by
        rw [List.get_map, List.get_map, List.get_eq_getElem,
          List.get_eq_getElem]
        exact heq
      have hfin := (List.Nodup.get_inj_iff hnd).mp hget
      have hval : x - 1 = j - 1 := congrArg Fin.val hfin
      omega

/-- C9: every ranked candidate emitted by the result assembly decorates
the sublattice with species occurrence counts exactly equal to the
configured per-species counts: each dopant species `el` appears
`dopant_counts[el]` times and the host species appears `host_count`
times.  The hypotheses name the pipeline intermediates and record that
every successful scoring result carries the label vector of one
submitted unique configuration — true for every completion order of the
worker pool, since workers echo their job's labels back. -/
theorem decorated_counts (cfg : ScanCfg) (species : List String)
    (perms : List (List Nat))
    (results : List (Except String (Int × List Nat)))
    (subIdx : List Nat) (dc : List (String × Nat)) (hc : Nat)
    (vecs uniq : List (List Nat)) (out : List RankedCandidate)
    (hinfer : inferEnumerationSublattice species cfg.hostSpecies
      cfg.anionSpecies = Except.ok (subIdx, dc, hc))
    (henum : enumerateLabelConfigs subIdx.length
      (dopantLabelCounts (dc.insertionSort speciesLe)) = Except.ok vecs)
    (hded : dedupUnique perms cfg.maxUnique vecs = Except.ok uniq)
    (hres : ∀ E lab, Except.ok (E, lab) ∈ results → lab ∈ uniq)
    (hout : scanOneFolderModel cfg species perms results = Except.ok out) :
    ∀ cand ∈ out,
      (∀ pr ∈ dc, cand.decorated.count pr.1 = pr.2) ∧
      cand.decorated.count cfg.hostSpecies = hc := by
  obtain ⟨si2, dc2, hc2, vecs2, uniq2, best, hinf2, henum2, hded2, hconsok,
    hout2⟩ := scanOneFolderModel_ok_inversion cfg species perms results
      out hout
  have htrip := hinfer.symm.trans hinf2
  rw [Except.ok.injEq, Prod.mk.injEq, Prod.mk.injEq] at htrip
  obtain ⟨h1, h2, h3⟩ := htrip
  subst h1
  subst h2
  subst h3
  have hv2 := henum.symm.trans henum2
  rw [Except.ok.injEq] at hv2
  subst hv2
  have hu2 := hded.symm.trans hded2
  rw [Except.ok.injEq] at hu2
  subst hu2
  obtain ⟨hndnames, hhostnot⟩ := infer_dopant_names species cfg.hostSpecies
    cfg.anionSpecies subIdx dc hc hinfer
  have hdsperm : (dc.insertionSort speciesLe).Perm dc :=
    List.perm_insertionSort speciesLe dc
  have hnddsnames : ((dc.insertionSort speciesLe).map Prod.fst).Nodup :=
    (hdsperm.map Prod.fst).nodup_iff.mpr hndnames
  have hhostds : cfg.hostSpecies ∉ (dc.insertionSort speciesLe).map Prod.fst :=
    fun habs => hhostnot ((hdsperm.map Prod.fst).mem_iff.mp habs)
  have hcounts := enumerateLabelConfigs_counts subIdx.length
    (dopantLabelCounts (dc.insertionSort speciesLe))
    (dopantLabelCounts_nonzero _) (dopantLabelCounts_fst_nodup _) vecs henum
  have hsum := infer_sum_eq species cfg.hostSpecies cfg.anionSpecies
    subIdx dc hc hinfer
  intro cand hcand
  rw [hout2] at hcand
  unfold assembleRanked at hcand
  obtain ⟨p, hp, hcandeq⟩ := List.mem_map.mp hcand
  have hp2 : p.2 ∈ best.insertionSort scoreLe := by
    rw [List.enum_eq_zip_range] at hp
    exact (List.of_mem_zip hp).2
  have hpbest : p.2 ∈ best :=
    (List.perm_insertionSort scoreLe best).mem_iff.mp hp2
  rcases consume_fold_subset cfg.topk results [] best hconsok p.2 hpbest
    with habs | hmem
  · cases habs
  · have hlab : p.2.2 ∈ uniq := by
      apply hres p.2.1 p.2.2
      have heta : (p.2.1, p.2.2) = p.2 := rfl
      rw [heta]
      exact hmem
    have hlabvec : p.2.2 ∈ vecs :=
      dedupUnique_subset perms cfg.maxUnique vecs uniq hded p.2.2 hlab
    obtain ⟨hlen, hcnt, hzero⟩ := hcounts.1 p.2.2 hlabvec
    have hent : ∀ x ∈ p.2.2, x ≤ (dc.insertionSort speciesLe).length := by
      intro x hx
      rcases (enumerateLabelConfigs_shape subIdx.length
          (dopantLabelCounts (dc.insertionSort speciesLe)) vecs henum p.2.2
          hlabvec).2 x hx with h0 | hl
      · omega
      · obtain ⟨pr, hpr, hx2⟩ := List.mem_map.mp hl
        obtain ⟨j, hj, hjeq⟩ := List.mem_map.mp hpr
        rw [← hx2, ← hjeq]
        have hjlt := List.mem_range.mp hj
        show j + 1 ≤ (dc.insertionSort speciesLe).length
        omega
    have hdec : cand.decorated =
        p.2.2.map (labelToEl cfg.hostSpecies (dc.insertionSort speciesLe)) := by
      rw [← hcandeq]
      rfl
    constructor
    · intro pr hpr
      have hprds : pr ∈ dc.insertionSort speciesLe := hdsperm.mem_iff.mpr hpr
      obtain ⟨j0, hjeq⟩ := List.mem_iff_get.mp hprds
      have hel : labelToEl cfg.hostSpecies (dc.insertionSort speciesLe)
          (j0.val + 1) = pr.1 := by
        unfold labelToEl
        rw [if_neg (by omega)]
        simp only [Nat.add_sub_cancel]
        rw [List.getD_eq_getElem _ _ j0.2, ← hjeq, List.get_eq_getElem]
      rw [hdec, ← hel, labelToEl_count cfg.hostSpecies
        (dc.insertionSort speciesLe) hnddsnames hhostds p.2.2 hent
        (j0.val + 1) j0.2]
      have hmemdlc := dopantLabelCounts_mem_of_lt (dc.insertionSort speciesLe)
        j0.val j0.2
      have hcj := hcnt _ hmemdlc
      rw [hcj]
      show ((dc.insertionSort speciesLe).getD j0.val ("", 0)).2 = pr.2
      rw [List.getD_eq_getElem _ _ j0.2, ← hjeq, List.get_eq_getElem]
    · have hhosteq : labelToEl cfg.hostSpecies (dc.insertionSort speciesLe) 0 =
          cfg.hostSpecies := by
        unfold labelToEl
        rw [if_pos rfl]
      have hch := labelToEl_count cfg.hostSpecies (dc.insertionSort speciesLe)
        hnddsnames hhostds p.2.2 hent 0 (by omega)
      rw [hhosteq] at hch
      rw [hdec, hch, hzero]
      have hsnd : ((dopantLabelCounts (dc.insertionSort speciesLe)).map
          Prod.snd).sum = (dc.map Prod.snd).sum := by
        unfold dopantLabelCounts
        rw [List.map_map]
        have hcomp : (Prod.snd ∘ fun j =>
            (j + 1, ((dc.insertionSort speciesLe).getD j ("", 0)).2)) =
            (fun j => ((dc.insertionSort speciesLe).getD j ("", 0)).2) := rfl
        rw [hcomp, range_map_getD_snd]
        exact (hdsperm.map Prod.snd).sum_eq
      rw [hsnd]
      omega

theorem decorated_counts_witness :
    (RankedCandidate.decorated
        (RankedCandidate.mk 1 5 [0, 1, 0] ["A", "B", "A"])).count "B" = 1 ∧
    (RankedCandidate.decorated
        (RankedCandidate.mk 1 5 [0, 1, 0] ["A", "B", "A"])).count "A" = 2 := by
  have h := decorated_counts ⟨2, 100, 100, "A", ["X"]⟩ ["A", "B", "X", "A"]
    [[0, 1, 2]] [Except.ok (5, [0, 1, 0])] [0, 1, 3] [("B", 1)] 2
    [[0, 0, 1], [0, 1, 0], [1, 0, 0]] [[0, 0, 1], [0, 1, 0], [1, 0, 0]]
    [RankedCandidate.mk 1 5 [0, 1, 0] ["A", "B", "A"]]
    rfl (by decide) (by decide)
    (by
      intro E lab hmem
      rw [List.mem_singleton] at hmem
      cases hmem
      decide)
    (by decide)
    (RankedCandidate.mk 1 5 [0, 1, 0] ["A", "B", "A"]) (by decide)
  exact ⟨h.1 ("B", 1) (by decide), h.2⟩

/-- Numpy `coord % 1.0` (modulus with the divisor's sign): the
fractional part `x - ⌊x⌋ ∈ [0,1)`. -/
def wrapFrac (x : ℚ) : ℚ := x - ⌊x⌋

/-- `d -= np.round(d)`: reduce a coordinate difference to the nearest
periodic image.  Numpy rounds half to even while `round` here rounds
half up; the two disagree only at half-integers, where both choices give
a reduced difference of `±1/2` and identical squared distance. -/
def nearestDelta (d : ℚ) : ℚ := d - round d

/-- The periodic squared distance of the matching loop:
`d = f - c; d -= np.round(d); dist2 = Σ d²`. -/
def periodicDist2 (f c : List ℚ) : ℚ :=
  ((f.zip c).map (fun p => (nearestDelta (p.1 - p.2)) ^ 2)).sum

/-- `np.argmin` accumulator: index of the first minimal entry. -/
def argminAux : List ℚ → Nat → Nat → ℚ → Nat
  | [], _, bi, _ => bi
  | x :: xs, i, bi, bv =>
      if x < bv then argminAux xs (i + 1) i x
      else argminAux xs (i + 1) bi bv

/-- `np.argmin`: the first index attaining the minimum (`0` on the empty
list, where numpy raises; the sublattice is never empty). -/
def argminFirst : List ℚ → Nat
  | [] => 0
  | x :: xs => argminAux xs 1 0 x

/-- `match_index` from `_build_symmetry_permutations`: wrap the
transformed coordinate into `[0,1)`, pick the sublattice site of
minimal periodic squared distance, and fail if even that minimum
exceeds `(symprec*10)²`. -/
def matchIndex (frac : List (List ℚ)) (symprec : ℚ) (coord : List ℚ) :
    Except ScanError Nat :=
  let c := coord.map wrapFrac
  let dist2 := frac.map (fun f => periodicDist2 f c)
  let j := argminFirst dist2
  if (symprec * 10) ^ 2 < dist2.getD j 0 then
    Except.error .symmetryMatchFailure
  else Except.ok j

/-- `R.dot(frac[i]) + t` on fractional coordinates. -/
def applyOp (R : List (List ℚ)) (t : List ℚ) (c : List ℚ) : List ℚ :=
  (R.zip t).map (fun rt => ((rt.1.zip c).map (fun p => p.1 * p.2)).sum + rt.2)

theorem nearestDelta_add_int (d : ℚ) (n : ℤ) :
    nearestDelta (d + n) = nearestDelta d := by
  unfold nearestDelta
  rw [round_add_int]
  push_cast
  ring

theorem periodicDist2_wrap (f c : List ℚ) :
    periodicDist2 f (c.map wrapFrac) = periodicDist2 f c := by
  unfold periodicDist2
  rw [List.zip_map_right, List.map_map]
  apply congrArg List.sum
  apply List.map_congr_left
  intro p _
  show (nearestDelta (p.1 - wrapFrac p.2)) ^ 2 =
    (nearestDelta (p.1 - p.2)) ^ 2
  have harg : p.1 - wrapFrac p.2 = (p.1 - p.2) + (⌊p.2⌋ : ℤ) := by
    unfold wrapFrac
    ring
  rw [harg, nearestDelta_add_int]

theorem argminAux_spec : ∀ (xs : List ℚ) (i bi : Nat) (bv : ℚ),
    (argminAux xs i bi bv = bi ∧ ∀ x ∈ xs, bv ≤ x) ∨
    (∃ k, k < xs.length ∧ argminAux xs i bi bv = i + k ∧
      xs.getD k 0 ≤ bv ∧ ∀ x ∈ xs, xs.getD k 0 ≤ x) := by
  intro xs
  induction xs with
  | nil =>
    intro i bi bv
    left
    exact ⟨rfl, by simp⟩
  | cons y ys ih =>
    intro i bi bv
    by_cases hy : y < bv
    · simp only [argminAux, if_pos hy]
      rcases ih (i + 1) i y with ⟨heq, hall⟩ | ⟨k, hk, heq, hle, hall⟩
      · right
        refine ⟨0, by simp, ?_, ?_, ?_⟩
        · rw [heq]
          omega
        · rw [List.getD_cons_zero]
          exact le_of_lt hy
        · intro x hx
          rw [List.getD_cons_zero]
          rcases List.mem_cons.mp hx with rfl | hx2
          · exact le_refl x
          · exact hall x hx2
      · right
        refine ⟨k + 1, by simp; omega, ?_, ?_, ?_⟩
        · rw [heq]
          omega
        · rw [List.getD_cons_succ]
          exact le_trans hle (le_of_lt hy)
        · intro x hx
          rw [List.getD_cons_succ]
          rcases List.mem_cons.mp hx with rfl | hx2
          · exact hle
          · exact hall x hx2
    · simp only [argminAux, if_neg hy]
      have hby : bv ≤ y := not_lt.mp hy
      rcases ih (i + 1) bi bv with ⟨heq, hall⟩ | ⟨k, hk, heq, hle, hall⟩
      · left
        refine ⟨heq, ?_⟩
        intro x hx
        rcases List.mem_cons.mp hx with rfl | hx2
        · exact hby
        · exact hall x hx2
      · right
        refine ⟨k + 1, by simp; omega, ?_, ?_, ?_⟩
        · rw [heq]
          omega
        · rw [List.getD_cons_succ]
          exact hle
        · intro x hx
          rw [List.getD_cons_succ]
          rcases List.mem_cons.mp hx with rfl | hx2
          · exact le_trans hle hby
          · exact hall x hx2

theorem argminFirst_spec (l : List ℚ) (hne : l ≠ []) :
    argminFirst l < l.length ∧
      ∀ x ∈ l, l.getD (argminFirst l) 0 ≤ x := by
  obtain ⟨y, ys, rfl⟩ := List.exists_cons_of_ne_nil hne
  show argminAux ys 1 0 y < (y :: ys).length ∧
    ∀ x ∈ y :: ys, (y :: ys).getD (argminAux ys 1 0 y) 0 ≤ x
  rcases argminAux_spec ys 1 0 y with ⟨heq, hall⟩ | ⟨k, hk, heq, hle, hall⟩
  · rw [heq]
    refine ⟨by simp, ?_⟩
    intro x hx
    rw [List.getD_cons_zero]
    rcases List.mem_cons.mp hx with rfl | hx2
    · exact le_refl x
    · exact hall x hx2
  · rw [heq]
    refine ⟨by simp; omega, ?_⟩
    intro x hx
    rw [show 1 + k = k + 1 by omega, List.getD_cons_succ]
    rcases List.mem_cons.mp hx with rfl | hx2
    · exact hle
    · exact hall x hx2

/-- C8: for a symmetry operation `(R, t)` and a site coordinate `c`, the
matching step of `_build_symmetry_permutations` maps the site to an
index of a sublattice site minimizing the periodic squared distance to
`R·c + t` (coordinate differences reduced modulo 1 to the nearest image;
the preliminary wrap of the target into `[0,1)` leaves that distance
unchanged), accepts the match only when that minimal squared distance is
at most `(symprec·10)²`, and otherwise raises the fatal
symmetry-matching error, which `mapM` propagates out of
`_build_symmetry_permutations`. -/
theorem match_index_spec (frac : List (List ℚ)) (symprec : ℚ)
    (R : List (List ℚ)) (t : List ℚ) (c : List ℚ) (hne : frac ≠ []) :
    (∀ j, matchIndex frac symprec (applyOp R t c) = Except.ok j →
      j < frac.length ∧
      periodicDist2 (frac.getD j []) (applyOp R t c) ≤ (symprec * 10) ^ 2 ∧
      ∀ f ∈ frac, periodicDist2 (frac.getD j []) (applyOp R t c) ≤
        periodicDist2 f (applyOp R t c)) ∧
    (matchIndex frac symprec (applyOp R t c) =
        Except.error .symmetryMatchFailure ↔
      ∀ f ∈ frac, (symprec * 10) ^ 2 <
        periodicDist2 f (applyOp R t c)) := by
  set c2 := (applyOp R t c).map wrapFrac with hc2
  set d2 := frac.map (fun f => periodicDist2 f c2) with hd2
  set j := argminFirst d2 with hj
  have hnem : d2 ≠ [] := by
    rw [hd2]
    intro habs
    exact hne (List.map_eq_nil.mp habs)
  obtain ⟨hjlt, hmin⟩ := argminFirst_spec d2 hnem
  have hlend : d2.length = frac.length := by
    rw [hd2]
    simp
  have hjfrac : j < frac.length := by
    rw [← hlend]
    exact hjlt
  have hval : d2.getD j 0 = periodicDist2 (frac.getD j []) c2 := by
    rw [hd2, List.getD_eq_getElem _ _ (by simpa using hjfrac),
      List.getElem_map, List.getD_eq_getElem _ _ hjfrac]
  have hwrap : ∀ f : List ℚ, periodicDist2 f c2 =
      periodicDist2 f (applyOp R t c) := fun f => periodicDist2_wrap f _
  have hm : matchIndex frac symprec (applyOp R t c) =
      if (symprec * 10) ^ 2 < d2.getD j 0 then
        Except.error .symmetryMatchFailure
      else Except.ok j := rfl
  constructor
  · intro j2 hok
    rw [hm] at hok
    by_cases hcase : (symprec * 10) ^ 2 < d2.getD j 0
    · rw [if_pos hcase] at hok
      cases hok
    · rw [if_neg hcase] at hok
      have hjj : j = j2 := by
        cases hok
        rfl
      rw [← hjj]
      refine ⟨hjfrac, ?_, ?_⟩
      · rw [← hwrap, ← hval]
        exact not_lt.mp hcase
      · intro f hf
        rw [← hwrap, ← hwrap, ← hval]
        apply hmin
        rw [hd2]
        exact List.mem_map.mpr ⟨f, hf, rfl⟩
  · constructor
    · intro herr f hf
      rw [hm] at herr
      by_cases hcase : (symprec * 10) ^ 2 < d2.getD j 0
      · have hle : d2.getD j 0 ≤ periodicDist2 f c2 := by
          apply hmin
          rw [hd2]
          exact List.mem_map.mpr ⟨f, hf, rfl⟩
        rw [← hwrap]
        exact lt_of_lt_of_le hcase hle
      · rw [if_neg hcase] at herr
        cases herr
    · intro hall
      rw [hm, if_pos ?_]
      have hmem : frac.getD j [] ∈ frac := by
        rw [List.getD_eq_getElem _ _ hjfrac]
        exact List.getElem_mem hjfrac
      rw [hval, hwrap]
      exact hall _ hmem

theorem match_index_spec_witness :
    1 < ([[(0 : ℚ)], [1/2]]).length ∧
    periodicDist2 ([[(0 : ℚ)], [1/2]].getD 1 [])
        (applyOp [[1]] [1/2] [0]) ≤ ((1/1000 : ℚ) * 10) ^ 2 ∧
    ∀ f ∈ [[(0 : ℚ)], [1/2]],
      periodicDist2 ([[(0 : ℚ)], [1/2]].getD 1 [])
          (applyOp [[1]] [1/2] [0]) ≤
        periodicDist2 f (applyOp [[1]] [1/2] [0]) :=
  (match_index_spec [[0], [1/2]] (1/1000) [[1]] [1/2] [0]
    (by simp)).1 1 (by
      norm_num [matchIndex, applyOp, periodicDist2, wrapFrac, nearestDelta,
        argminAux, argminFirst, round_eq])

end DopingFlow
